import Mathlib

/-!
# Chunk store (NBS) and branch command: a verification development

Shallow embedding of

* `go/nbs/mem_table_test.go`: `chunkReaderGroup` and its four lookups
  (`has`, `get`, `hasMany`, `getMany`), together with the memory table
  exercised by the tests of that file;
* `go/cmd/dolt/commands/branch.go`: `BranchCmd.Exec` and the handlers it
  dispatches to.

Go methods that call out to an interface value are embedded as functions over
a record of the interface's methods. Calls whose order matters are recorded in
an explicit trace that the embedded loop builds as it runs.
-/

namespace Nbs

/-! ## Data model -/

/-- One octet of a chunk or of an address. -/
abbrev byte := Fin 256

/-- Width of an address in bytes (`addrSize`). -/
def addrSize : Nat := 20

/-- Modelled from the spec: the type `addr` is declared elsewhere in the repository;
the spec describes it as a fixed-length (20-byte) identifier compared by its bytes. -/
abbrev addr := { l : List byte // l.length = addrSize }

/-- Modelled from the spec: `hasRecord`, declared elsewhere in the repository, is
per-query-address bookkeeping carrying an address plus a mutable "found" flag. -/
structure hasRecord where
  a : addr
  has : Bool
  deriving DecidableEq

/-- Modelled from the spec: `getRecord`, declared elsewhere in the repository, is
per-query-address bookkeeping carrying an address plus a mutable result slot.
The slot is `none` for Go's `nil` (not yet populated). -/
structure getRecord where
  a : addr
  data : Option (List byte)
  deriving DecidableEq

/-- Modelled from the spec: the interface `chunkReader`, declared elsewhere in the
repository, is any component exposing `has`/`get`/`hasMany`/`getMany`. `get` answers
`none` for Go's `nil` slice. The batch methods mutate the slice they are handed;
here they return the batch as they leave it, next to their `remaining` result. -/
structure chunkReader where
  has : addr → Bool
  get : addr → Option (List byte)
  hasMany : List hasRecord → List hasRecord × Bool
  getMany : List getRecord → List getRecord × Bool

/-- The Go type `chunkReaderGroup []chunkReader`. -/
abbrev chunkReaderGroup := List chunkReader

/-- Result of a single-address group query, with the positions of the members
whose method was called, in call order. -/
structure Traced (α : Type) where
  result : α
  consulted : List Nat

/-- Result of a batch group query: the batch as the last call left it, the
`remaining` answer, and for every call made the position of the member and the
batch it was handed, in call order. -/
structure BatchOutcome (ρ : Type) where
  records : List ρ
  remaining : Bool
  calls : List (Nat × List ρ)

/-! ## `chunkReaderGroup` -/

/-- Loop of `chunkReaderGroup.has` over the members from position `i` on. -/
def chunkReaderGroup.hasFrom (h : addr) : Nat → List chunkReader → Traced Bool
  | _, [] => ⟨false, []⟩
  | i, haver :: rest =>
    if haver.has h then ⟨true, [i]⟩
    else
      let r := chunkReaderGroup.hasFrom h (i + 1) rest
      ⟨r.result, i :: r.consulted⟩

/-- The method `func (crg chunkReaderGroup) has(h addr) bool`. -/
def chunkReaderGroup.has (crg : chunkReaderGroup) (h : addr) : Traced Bool :=
  chunkReaderGroup.hasFrom h 0 crg

/-- Loop of `chunkReaderGroup.get` over the members from position `i` on. -/
def chunkReaderGroup.getFrom (h : addr) : Nat → List chunkReader → Traced (Option (List byte))
  | _, [] => ⟨none, []⟩
  | i, haver :: rest =>
    match haver.get h with
    | some data => ⟨some data, [i]⟩
    | none =>
      let r := chunkReaderGroup.getFrom h (i + 1) rest
      ⟨r.result, i :: r.consulted⟩

/-- The method `func (crg chunkReaderGroup) get(h addr) []byte`. -/
def chunkReaderGroup.get (crg : chunkReaderGroup) (h : addr) : Traced (Option (List byte)) :=
  chunkReaderGroup.getFrom h 0 crg

/-- Loop of `chunkReaderGroup.hasMany` over the members from position `i` on. -/
def chunkReaderGroup.hasManyFrom : Nat → List chunkReader → List hasRecord → BatchOutcome hasRecord
  | _, [], addrs => ⟨addrs, true, []⟩
  | i, haver :: rest, addrs =>
    let p := haver.hasMany addrs
    if !p.2 then ⟨p.1, false, [(i, addrs)]⟩
    else
      let r := chunkReaderGroup.hasManyFrom (i + 1) rest p.1
      ⟨r.records, r.remaining, (i, addrs) :: r.calls⟩

/-- The method `func (crg chunkReaderGroup) hasMany(addrs []hasRecord) (remaining bool)`. -/
def chunkReaderGroup.hasMany (crg : chunkReaderGroup) (addrs : List hasRecord) :
    BatchOutcome hasRecord :=
  chunkReaderGroup.hasManyFrom 0 crg addrs

/-- Loop of `chunkReaderGroup.getMany` over the members from position `i` on. -/
def chunkReaderGroup.getManyFrom : Nat → List chunkReader → List getRecord → BatchOutcome getRecord
  | _, [], reqs => ⟨reqs, true, []⟩
  | i, haver :: rest, reqs =>
    let p := haver.getMany reqs
    if !p.2 then ⟨p.1, false, [(i, reqs)]⟩
    else
      let r := chunkReaderGroup.getManyFrom (i + 1) rest p.1
      ⟨r.records, r.remaining, (i, reqs) :: r.calls⟩

/-- The method `func (crg chunkReaderGroup) getMany(reqs []getRecord) (remaining bool)`. -/
def chunkReaderGroup.getMany (crg : chunkReaderGroup) (reqs : List getRecord) :
    BatchOutcome getRecord :=
  chunkReaderGroup.getManyFrom 0 crg reqs

/-- Control flow common to `hasManyFrom` and `getManyFrom`, over the members'
batch methods alone; used to reason about both loops at once. -/
def batchLoop {ρ : Type} : Nat → List (List ρ → List ρ × Bool) → List ρ → BatchOutcome ρ
  | _, [], b => ⟨b, true, []⟩
  | i, f :: fs, b =>
    let p := f b
    if !p.2 then ⟨p.1, false, [(i, b)]⟩
    else
      let r := batchLoop (i + 1) fs p.1
      ⟨r.records, r.remaining, (i, b) :: r.calls⟩

/-- The batch after the first `j` batch methods of `fs` ran in order on `b`. -/
def batchAt {ρ : Type} (fs : List (List ρ → List ρ × Bool)) (b : List ρ) (j : Nat) : List ρ :=
  (fs.take j).foldl (fun acc f => (f acc).1) b

/-! ## The batch contract of a reader

The contract every table reader's batch methods follow, stated on the values a
call returns. -/

/-- A record of a `hasMany` batch after a pass of a source whose point lookup is
`has`: a not-yet-found record is marked found on a local hit, and is left
untouched on a miss or when it was found before. -/
def markFound (has : addr → Bool) (r : hasRecord) : hasRecord :=
  if r.has = false ∧ has r.a = true then { r with has := true } else r

/-- Some record of the batch is still unresolved. -/
def anyUnresolved (recs : List hasRecord) : Prop := ∃ r ∈ recs, r.has = false

/-- The `hasMany` batch contract of a reader: every record is left as `markFound`
describes, and the answer is `true` exactly when a record of the batch is still
unresolved after the pass. -/
def obeysHasMany (m : chunkReader) : Prop :=
  ∀ recs : List hasRecord,
    (m.hasMany recs).1 = recs.map (markFound m.has) ∧
    ((m.hasMany recs).2 = true ↔ anyUnresolved (m.hasMany recs).1)

/-- The batch handed to the member at position `j` of a group when every member
before it has been called in list order, each on the batch its predecessor left. -/
def hasBatchAt (crg : chunkReaderGroup) (addrs : List hasRecord) (j : Nat) : List hasRecord :=
  (crg.take j).foldl (fun acc m => (m.hasMany acc).1) addrs

/-- The `getMany` counterpart of `hasBatchAt`. -/
def getBatchAt (crg : chunkReaderGroup) (reqs : List getRecord) (j : Nat) : List getRecord :=
  (crg.take j).foldl (fun acc m => (m.getMany acc).1) reqs

/-! ## Memory table, table writer and table reader -/

/-- Modelled from the spec: the batch methods of the sources are elsewhere in the
repository; the spec has each of them, for each record not yet marked found by an
earlier pass, consult the local index, mark the record found on a hit, leave it
untouched on a miss, and answer `true` when a record remains unresolved. This
is the batch form of `has`, shared by the memory table and the table reader. -/
def hasManyBy (has : addr → Bool) : List hasRecord → List hasRecord × Bool
  | [] => ([], false)
  | r :: rs =>
    let p := hasManyBy has rs
    if r.has then (r :: p.1, p.2)
    else if has r.a then ({ r with has := true } :: p.1, p.2)
    else (r :: p.1, true)

/-- Modelled from the spec: the batch form of `get`, elsewhere in the repository, does
as `hasManyBy` and populates the result slot of a record on a hit. -/
def getManyBy (get : addr → Option (List byte)) : List getRecord → List getRecord × Bool
  | [] => ([], false)
  | r :: rs =>
    let p := getManyBy get rs
    match r.data with
    | some _ => (r :: p.1, p.2)
    | none =>
      match get r.a with
      | some d => ({ r with data := some d } :: p.1, p.2)
      | none => (r :: p.1, true)

/-- Modelled from the spec: the memory table is declared elsewhere in the repository.
The spec gives it a mapping from address to chunk bytes that preserves insertion
order, a running total of occupied payload bytes, and a fixed byte capacity. -/
structure memTable where
  chunks : List (addr × List byte)
  totalData : Nat
  maxData : Nat
  deriving DecidableEq

/-- Modelled from the spec: `newMemTable` is elsewhere in the repository; the spec has
it give an empty table with the given byte budget and fail only on a
non-positive capacity. -/
def newMemTable (memTableSize : Nat) : Option memTable :=
  if memTableSize = 0 then none else some ⟨[], 0, memTableSize⟩

/-- Modelled from the spec: `memTable.has` is elsewhere in the repository; the spec
makes it a pure lookup against the current buffered set. -/
def memTable.has (mt : memTable) (h : addr) : Bool :=
  mt.chunks.any (fun c => decide (c.1 = h))

/-- Modelled from the spec: `memTable.get` is elsewhere in the repository; the spec
makes it a pure lookup that yields the bytes or "absent" (`none`). -/
def memTable.get (mt : memTable) (h : addr) : Option (List byte) :=
  (mt.chunks.find? (fun c => decide (c.1 = h))).map Prod.snd

/-- Modelled from the spec: `memTable.addChunk` is elsewhere in the repository. The
spec has it insert the chunk unless doing so would make the occupied total
exceed the capacity, in which case it answers `false` and leaves the state
unchanged; re-adding an address already present is a no-op success that does
not count its bytes again; a success adds the payload length to the total. -/
def memTable.addChunk (mt : memTable) (h : addr) (data : List byte) : memTable × Bool :=
  if mt.has h then (mt, true)
  else if mt.totalData + data.length > mt.maxData then (mt, false)
  else
    ({ chunks := mt.chunks ++ [(h, data)],
       totalData := mt.totalData + data.length,
       maxData := mt.maxData }, true)

/-- A run of `addChunk` calls, one after the other, with the answer of each call:
the loop `for _, c := range chunks { mt.addChunk(...) }` of the tests. -/
def memTable.addChunks (mt : memTable) : List (addr × List byte) → memTable × List Bool
  | [] => (mt, [])
  | c :: cs =>
    let p := mt.addChunk c.1 c.2
    let q := memTable.addChunks p.1 cs
    (q.1, p.2 :: q.2)

/-- The memory table as a member of a chunk reader group. -/
def memTable.reader (mt : memTable) : chunkReader :=
  ⟨mt.has, mt.get, hasManyBy mt.has, getManyBy mt.get⟩

/-- Modelled from the spec: the size in bytes of one index entry, a constant elsewhere
in the repository; the layout is address (20) | offset (8) | length (4). -/
def indexEntrySize : Nat := addrSize + 8 + 4

/-- Modelled from the spec: the size in bytes of the checksum of the footer, a constant
elsewhere in the repository; the layout allows 4 to 8 bytes, no property below
depends on the choice. -/
def checksumSize : Nat := 4

/-- Modelled from the spec: the size in bytes of the footer, a constant elsewhere in
the repository; the layout is chunk count (4) | index checksum. -/
def footerSize : Nat := 4 + checksumSize

/-- Modelled from the spec: `maxTableSize` is elsewhere in the repository; the sizing
contract is `sum(payload lengths) + N * indexEntrySize + footerSize`. -/
def maxTableSize (numChunks totalData : Nat) : Nat :=
  totalData + numChunks * indexEntrySize + footerSize

/-- Modelled from the spec: one entry of a table's index, a type elsewhere in the
repository: address, byte offset and length of the payload. -/
structure indexEntry where
  a : addr
  offset : Nat
  length : Nat
  deriving DecidableEq

/-- Modelled from the spec: the fixed-width integer fields of a table file, written by
code elsewhere in the repository. The field of `k` bytes holds `n` modulo
`256 ^ k`; the spec does not fix the byte order, big-endian is taken. -/
def beBytes : Nat → Nat → List byte
  | 0, _ => []
  | k + 1, n => beBytes k (n / 256) ++ [⟨n % 256, Nat.mod_lt n (by decide)⟩]

/-- Modelled from the spec: the value of a fixed-width big-endian integer field, read
by code elsewhere in the repository. -/
def beValue (bs : List byte) : Nat :=
  bs.foldl (fun acc b => acc * 256 + b.val) 0

/-- Modelled from the spec: the bytes of one index entry, written by code elsewhere in
the repository: address (20 bytes) | offset (8 bytes) | length (4 bytes). -/
def encodeEntry (e : indexEntry) : List byte :=
  e.a.val ++ beBytes 8 e.offset ++ beBytes 4 e.length

/-- Modelled from the spec: the bytes of the index of a table file, written by code
elsewhere in the repository: the index entries one after the other. -/
def encodeIndex : List indexEntry → List byte
  | [] => []
  | e :: es => encodeEntry e ++ encodeIndex es

/-- The region `buff` after `bs` was copied into it at offset `pos`; the bytes before
and after the copy are untouched. -/
def writeAt (buff : List byte) (pos : Nat) (bs : List byte) : List byte :=
  buff.take pos ++ bs ++ buff.drop (pos + bs.length)

/-- Modelled from the spec: the table writer is elsewhere in the repository. It is bound
to a pre-allocated destination region `buff` and holds the offset up to which
the region is written and the index in progress. -/
structure tableWriter where
  buff : List byte
  pos : Nat
  index : List indexEntry
  deriving DecidableEq

/-- Modelled from the spec: `newTableWriter(buff)`, elsewhere in the repository, binds
the writer to the pre-allocated region `buff`. -/
def newTableWriter (buff : List byte) : tableWriter := ⟨buff, 0, []⟩

/-- Modelled from the spec: `writeChunk`, elsewhere in the repository, appends one
chunk's payload and records its address, offset and length in the index in
progress. Writing past the bound of the destination region is fatal (`none`). -/
def tableWriter.writeChunk (tw : tableWriter) (h : addr) (data : List byte) :
    Option tableWriter :=
  if tw.pos + data.length > tw.buff.length then none
  else some ⟨writeAt tw.buff tw.pos data, tw.pos + data.length,
    tw.index ++ [⟨h, tw.pos, data.length⟩]⟩

/-- Modelled from the spec: `finish`, elsewhere in the repository, writes the index and
the footer (chunk count in 4 bytes, checksum over the index bytes) after the
payloads and answers the region and the number of bytes of it that the table
occupies; the bytes of the region beyond that offset are untouched. The checksum
function `ck` is left open. Running past the bound of the region is fatal
(`none`). -/
def tableWriter.finish (ck : List byte → Nat) (tw : tableWriter) : Option (List byte × Nat) :=
  let indexBytes := encodeIndex tw.index
  let tail := indexBytes ++ (beBytes 4 tw.index.length ++ beBytes checksumSize (ck indexBytes))
  if tw.pos + tail.length > tw.buff.length then none
  else some (writeAt tw.buff tw.pos tail, tw.pos + tail.length)

/-- An index entry as it reads back from its bytes: the offset modulo `2 ^ 64` and
the length modulo `2 ^ 32`, the widths of their fields. -/
def indexEntry.stored (e : indexEntry) : indexEntry :=
  ⟨e.a, e.offset % 256 ^ 8, e.length % 256 ^ 4⟩

/-- Modelled from the spec: the table reader, elsewhere in the repository, holds the
parsed index and the random-access source of the payloads. -/
structure tableReader where
  index : List indexEntry
  source : List byte
  deriving DecidableEq

/-- Modelled from the spec: the parse of `n` index entries from the index bytes of a
table file, done by code elsewhere in the repository; it fails (`none`) when the
bytes run out before the address of an entry is complete. -/
def parseIndex : Nat → List byte → Option (List indexEntry)
  | 0, _ => some []
  | n + 1, bs =>
    if h : (bs.take addrSize).length = addrSize then
      match parseIndex n (bs.drop indexEntrySize) with
      | some es =>
        some (⟨⟨bs.take addrSize, h⟩, beValue ((bs.drop addrSize).take 8),
          beValue ((bs.drop (addrSize + 8)).take 4)⟩ :: es)
      | none => none
    else none

/-- Modelled from the spec: `newTableReader(tableBytes, source)`, elsewhere in the
repository, parses the footer and the index from the byte extent of a finished
table. The footer is the last `footerSize` bytes, the index the
`count * indexEntrySize` bytes before it. An extent shorter than the footer, or
shorter than the index the footer claims, and a checksum that does not match the
index bytes are fatal construction errors (`none`). -/
def newTableReader (ck : List byte → Nat) (tableBytes source : List byte) :
    Option tableReader :=
  if tableBytes.length < footerSize then none
  else
    let footer := tableBytes.drop (tableBytes.length - footerSize)
    let count := beValue (footer.take 4)
    if tableBytes.length - footerSize < count * indexEntrySize then none
    else
      let indexBytes :=
        (tableBytes.drop (tableBytes.length - footerSize - count * indexEntrySize)).take
          (count * indexEntrySize)
      if footer.drop 4 ≠ beBytes checksumSize (ck indexBytes) then none
      else
        match parseIndex count indexBytes with
        | some index => some ⟨index, source⟩
        | none => none

/-- Modelled from the spec: `tableReader.has`, elsewhere in the repository, is a lookup
against the parsed index. -/
def tableReader.has (tr : tableReader) (h : addr) : Bool :=
  tr.index.any (fun e => decide (e.a = h))

/-- Modelled from the spec: `tableReader.get`, elsewhere in the repository, resolves the
index entry, then reads exactly the payload's offset and length from the backing
source. -/
def tableReader.get (tr : tableReader) (h : addr) : Option (List byte) :=
  (tr.index.find? (fun e => decide (e.a = h))).map
    (fun e => (tr.source.drop e.offset).take e.length)

/-- The table reader as a member of a chunk reader group. -/
def tableReader.reader (tr : tableReader) : chunkReader :=
  ⟨tr.has, tr.get, hasManyBy tr.has, getManyBy tr.get⟩

/-- Modelled from the spec: `memTable.write` is elsewhere in the repository. For every
buffered chunk, in insertion order, it skips the chunk if the existing sources
report that they have its address, and otherwise hands the address and the
bytes to the table writer. -/
def memTable.writeChunks (haves : chunkReaderGroup) :
    List (addr × List byte) → tableWriter → Option tableWriter
  | [], tw => some tw
  | c :: cs, tw =>
    if (haves.has c.1).result then memTable.writeChunks haves cs tw
    else
      match tw.writeChunk c.1 c.2 with
      | none => none
      | some tw' => memTable.writeChunks haves cs tw'

/-- Modelled from the spec: the method `mt.write(tw, haves)`, elsewhere in the
repository, runs `memTable.writeChunks` over the buffered chunks. -/
def memTable.write (mt : memTable) (tw : tableWriter) (haves : chunkReaderGroup) :
    Option tableWriter :=
  memTable.writeChunks haves mt.chunks tw

/-- The buffered chunks whose address no member of `haves` has, in insertion order. -/
def memTable.fresh (mt : memTable) (haves : chunkReaderGroup) : List (addr × List byte) :=
  mt.chunks.filter (fun c => !(haves.any (fun m => m.has c.1)))

/-- Sum of the payload lengths of a list of chunks. -/
def payloadSize (cs : List (addr × List byte)) : Nat :=
  (cs.map (fun c => c.2.length)).sum

/-! ## Accounting of a run of `addChunk` calls -/

/-- Sum of the payload lengths of the chunks whose `addChunk` call answered `true`,
given the calls and their answers. -/
def acceptedSize (calls : List (addr × List byte)) (oks : List Bool) : Nat :=
  (((calls.zip oks).filter (fun p => p.2)).map (fun p => p.1.2.length)).sum

/-- Sum of the payload lengths of the chunks that a run of `addChunk` calls on `mt`
inserted: the calls that answered `true` for an address not present before. -/
def insertedSize (mt : memTable) : List (addr × List byte) → Nat
  | [] => 0
  | c :: cs =>
    (if mt.has c.1 = false ∧ (mt.addChunk c.1 c.2).2 = true then c.2.length else 0)
      + insertedSize (mt.addChunk c.1 c.2).1 cs

/-! ## Fixtures of the tests -/

/-- An address whose twenty bytes all equal `n`; stands in for `computeAddr` of a
test chunk, the hash function being elsewhere in the repository. -/
def addrOf (n : byte) : addr := ⟨List.replicate 20 n, by simp [addrSize]⟩

/-- The chunk `[]byte("hello2")` of the tests. -/
def chunkHello : List byte := [104, 101, 108, 108, 111, 50]

/-- The chunk `[]byte("goodbye2")` of the tests. -/
def chunkGoodbye : List byte := [103, 111, 111, 100, 98, 121, 101, 50]

/-- The chunk `[]byte("badbye2")` of the tests. -/
def chunkBadbye : List byte := [98, 97, 100, 98, 121, 101, 50]

/-- A memory table of capacity 1024 holding the chunk "goodbye2" at `addrOf 1`. -/
def mtGoodbye : memTable := ⟨[(addrOf 1, chunkGoodbye)], 8, 1024⟩

/-- A memory table of capacity 1024 holding the chunk "badbye2" at `addrOf 2`. -/
def mtBadbye : memTable := ⟨[(addrOf 2, chunkBadbye)], 7, 1024⟩

/-- A memory table of capacity 1024 holding the three chunks of the tests. -/
def mtThree : memTable :=
  ⟨[(addrOf 0, chunkHello), (addrOf 1, chunkGoodbye), (addrOf 2, chunkBadbye)], 21, 1024⟩

/-- The table of `TestMemTableAddOverflowChunk` after its first accepted chunk in
the second block: capacity 1024, holding a chunk of 1023 zero bytes. -/
def mtAlmostFull : memTable := ⟨[(addrOf 0, List.replicate 1023 0)], 1023, 1024⟩

/-- A stand-in for `computeAddr` on the chunks of the tests: the address made of
the first byte of the chunk. It tells the three chunks of the tests apart. -/
def addrOfHead (c : List byte) : addr := addrOf (c.headD 0)

/-- The reader `tr1` of `TestMemTableWrite`: a table holding the chunk "goodbye2". -/
def trGoodbye : tableReader := ⟨[⟨addrOf 1, 0, 8⟩], chunkGoodbye⟩

/-- The reader `tr2` of `TestMemTableWrite`: a table holding the chunk "badbye2". -/
def trBadbye : tableReader := ⟨[⟨addrOf 2, 0, 7⟩], chunkBadbye⟩

end Nbs

namespace Branch

/-! ## The branch command (`go/cmd/dolt/commands/branch.go`) -/

def listFlag : String := "list"
def forceFlag : String := "force"
def copyFlag : String := "copy"
def moveFlag : String := "move"
def deleteFlag : String := "delete"
def deleteForceFlag : String := "D"
def verboseFlag : String := "verbose"
def allFlag : String := "all"

/-- A parse result `*argparser.ArgParseResults`. The type is declared elsewhere in
the repository; it is kept as what its methods answer: the names of the options
present and the positional arguments. `Exec` is embedded from the parse result
on (`cli.ParseArgs` is elsewhere in the repository as well). -/
structure ArgParseResults where
  options : List String
  args : List String
  deriving DecidableEq

/-- The method `apr.Contains(name)`. -/
def ArgParseResults.Contains (apr : ArgParseResults) (name : String) : Bool :=
  apr.options.contains name

/-- The method `apr.NArg()`. -/
def ArgParseResults.NArg (apr : ArgParseResults) : Nat := apr.args.length

/-- The method `apr.Arg(i)`; every call in this file is guarded by a check of
`NArg`, the default is never reached. -/
def ArgParseResults.Arg (apr : ArgParseResults) (i : Nat) : String := apr.args.getD i ""

/-- The method `apr.Args()`. -/
def ArgParseResults.Args (apr : ArgParseResults) : List String := apr.args

/-- The `error` values the handlers tell apart: the sentinel errors of `doltdb` and
`actions`, the errors for which `doltdb.IsNotACommit` holds, and any other. -/
inductive GoError where
  | ErrBranchNotFound
  | ErrAlreadyExists
  | ErrInvBranchName
  | ErrCOBranchDelete
  | ErrInvHash
  | notACommit (msg : String)
  | other (msg : String)
  deriving DecidableEq

/-- The predicate `doltdb.IsNotACommit(err)`. -/
def IsNotACommit : GoError → Bool
  | .notACommit _ => true
  | _ => false

/-- What `errhand.BuildDError(msg).AddCause(cause).Build()` is built from. -/
structure VerboseError where
  msg : String
  cause : Option GoError
  deriving DecidableEq

/-- The result of `errhand.BuildDError(msg).Build()`. -/
def BuildDError (msg : String) : VerboseError := ⟨msg, none⟩

/-- The result of `errhand.BuildDError(msg).AddCause(err).Build()`. -/
def BuildDErrorCause (msg : String) (err : GoError) : VerboseError := ⟨msg, some err⟩

/-- The kinds of ref that `printBranches` tells apart (`ref.BranchRefType`,
`ref.RemoteRefType`, any other). -/
inductive RefType where
  | BranchRefType
  | RemoteRefType
  | otherRefType
  deriving DecidableEq

/-- A `ref.DoltRef`, by what `GetType()` and `GetPath()` answer. -/
structure DoltRef where
  typ : RefType
  path : String
  deriving DecidableEq

/-- What the verbose listing learns about the head of a ref: `Resolve` failed,
`Resolve` succeeded and `HashOf` failed, or the hash as a string. -/
inductive HeadLookup where
  | resolveFailed
  | hashFailed (err : GoError)
  | hash (h : String)
  deriving DecidableEq

/-- The collaborators of the command, all elsewhere in the repository, as the
answers they give: the branch actions (`actions.MoveBranch`, ...), the
database and repo state read by the listing, the `ref`, `errhand` and `color`
helpers, and the constant `allParam`. -/
structure Env where
  MoveBranch : String → String → Bool → Option GoError
  CopyBranch : String → String → Bool → Option GoError
  DeleteBranch : String → Bool → Option GoError
  CreateBranch : String → String → Bool → Option GoError
  GetRefs : Except GoError (List DoltRef)
  CWBHeadRef : DoltRef
  headOf : DoltRef → HeadLookup
  refString : DoltRef → String
  refEquals : DoltRef → DoltRef → Bool
  Verbose : VerboseError → String
  ShouldPrintUsage : VerboseError → Bool
  GreenString : String → String
  RedString : String → String
  allParam : String

/-- What a handler does to the outside, in order. -/
inductive Effect where
  | usage
  | println (line : String)
  | printErrln (msg : String)
  | MoveBranch (src dest : String) (force : Bool)
  | CopyBranch (src dest : String) (force : Bool)
  | DeleteBranch (brName : String) (force : Bool)
  | CreateBranch (newBranch startPt : String) (force : Bool)
  deriving DecidableEq

/-- The effect is a call of one of the branch actions (move, copy, delete, create). -/
def Effect.isAction : Effect → Bool
  | .MoveBranch _ _ _ => true
  | .CopyBranch _ _ _ => true
  | .DeleteBranch _ _ => true
  | .CreateBranch _ _ _ => true
  | _ => false

/-- The run of a handler: its effects, and the exit code it returns (`none` when the
run panics on the call of a nil usage printer). -/
structure Outcome where
  effects : List Effect
  code : Option Int
  deriving DecidableEq

/-- Go's `unicode.IsSpace`. -/
def isSpace (c : Char) : Bool :=
  c.val = 0x09 || c.val = 0x0A || c.val = 0x0B || c.val = 0x0C || c.val = 0x0D ||
  c.val = 0x20 || c.val = 0x85 || c.val = 0xA0 || c.val = 0x1680 ||
  (0x2000 ≤ c.val && c.val ≤ 0x200A) || c.val = 0x2028 || c.val = 0x2029 ||
  c.val = 0x202F || c.val = 0x205F || c.val = 0x3000

/-- The function `HandleVErrAndExitCode(verr, usage)`; `usage` says whether a usage
printer was passed (it is nil in the calls made by `printBranches`). -/
def HandleVErrAndExitCode (env : Env) (verr : Option VerboseError) (usage : Bool) : Outcome :=
  match verr with
  | some v =>
    let printed : List Effect :=
      if (env.Verbose v).any (fun c => !isSpace c) then [Effect.printErrln (env.Verbose v)]
      else []
    if env.ShouldPrintUsage v then
      if usage then ⟨printed ++ [Effect.usage], some 1⟩
      else ⟨printed, none⟩
    else ⟨printed, some 1⟩
  | none => ⟨[], some 0⟩

/-- Prefixes the effects of a later part of a run with those done before it. -/
def Outcome.after (pre : List Effect) (o : Outcome) : Outcome := ⟨pre ++ o.effects, o.code⟩

/-- The line printed for one branch: `fmt.Sprintf(fmtStr, branchName, "", commitStr)`
where `fmtStr` is `%s%<w>s\t%s` with the number `w = 48 - branchLen` written
out. The empty string is padded to `|w|` blanks (on the right for a negative
`w`, which reads as the flag `-`). Go's `fmt` gives up on a width whose digits
run past 1000000 before the last one, that is for `|w| >= 10000010`: the rest of
the format is dropped, `%!(NOVERB)` is printed and the two unused arguments are
reported as extra. -/
def branchLine (branchName : String) (branchLen : Nat) (commitStr : String) : String :=
  let w := (48 - (branchLen : Int)).natAbs
  if w / 10 > 1000000 then
    branchName ++ "%!(NOVERB)%!(EXTRA string=, string=" ++ commitStr ++ ")"
  else
    branchName ++ String.mk (List.replicate w ' ') ++ "\t" ++ commitStr

/-- The loop `for _, branch := range branches` of `printBranches`. -/
def printBranchLoop (env : Env) (branchSet : List String) (verbose printAll : Bool) :
    List DoltRef → Outcome
  | [] => ⟨[], some 0⟩
  | branch :: rest =>
    if branchSet.length > 0 && !branchSet.contains branch.path then
      printBranchLoop env branchSet verbose printAll rest
    else if branch.typ ≠ RefType.BranchRefType && !printAll then
      printBranchLoop env branchSet verbose printAll rest
    else
      let plainName := "  " ++ branch.path
      let branchLen := plainName.utf8ByteSize
      let named : String × Nat :=
        if env.refEquals branch env.CWBHeadRef then
          ("* " ++ env.GreenString branch.path, branchLen)
        else if branch.typ = RefType.RemoteRefType then
          ("  " ++ env.RedString ("remotes/" ++ branch.path), branchLen + "remotes/".utf8ByteSize)
        else (plainName, branchLen)
      let emit (commitStr : String) : Outcome :=
        (printBranchLoop env branchSet verbose printAll rest).after
          [Effect.println (branchLine named.1 named.2 commitStr)]
      if verbose then
        match env.headOf branch with
        | .resolveFailed => emit ""
        | .hashFailed err =>
          HandleVErrAndExitCode env
            (some (BuildDErrorCause "error: failed to hash commit" err)) false
        | .hash h => emit h
      else emit ""

/-- The function `printBranches`. `sort.Slice` orders the refs by `String()`; where
two refs have the same `String()` the order of an insertion sort is taken. -/
def printBranches (env : Env) (apr : ArgParseResults) : Outcome :=
  let branchSet := apr.Args
  let verbose := apr.Contains verboseFlag
  let printAll := apr.Contains env.allParam
  match env.GetRefs with
  | .error err =>
    HandleVErrAndExitCode env
      (some (BuildDErrorCause "error: failed to read refs from db" err)) false
  | .ok branches =>
    printBranchLoop env branchSet verbose printAll
      (branches.insertionSort (fun a b => env.refString a ≤ env.refString b))

/-- The function `moveBranch`. -/
def moveBranch (env : Env) (apr : ArgParseResults) : Outcome :=
  if apr.NArg ≠ 2 then ⟨[Effect.usage], some 1⟩
  else
    let force := apr.Contains forceFlag
    let src := apr.Arg 0
    let dest := apr.Arg 1
    let verr : Option VerboseError :=
      match env.MoveBranch src (apr.Arg 1) force with
      | none => none
      | some .ErrBranchNotFound => some (BuildDError ("fatal: branch '" ++ src ++ "' not found"))
      | some .ErrAlreadyExists =>
        some (BuildDError ("fatal: A branch named '" ++ dest ++ "' already exists."))
      | some .ErrInvBranchName =>
        some (BuildDError ("fatal: '" ++ dest ++ "' is not a valid branch name."))
      | some .ErrCOBranchDelete =>
        some (BuildDError ("error: Cannot delete checked out branch '" ++ src ++ "'"))
      | some err =>
        some (BuildDErrorCause
          ("fatal: Unexpected error moving branch from '" ++ src ++ "' to '" ++ dest ++ "'") err)
    (HandleVErrAndExitCode env verr true).after [Effect.MoveBranch src (apr.Arg 1) force]

/-- The function `copyBranch`. -/
def copyBranch (env : Env) (apr : ArgParseResults) : Outcome :=
  if apr.NArg ≠ 2 then ⟨[Effect.usage], some 1⟩
  else
    let force := apr.Contains forceFlag
    let src := apr.Arg 0
    let dest := apr.Arg 1
    let verr : Option VerboseError :=
      match env.CopyBranch src dest force with
      | none => none
      | some .ErrBranchNotFound => some (BuildDError ("fatal: branch '" ++ src ++ "' not found"))
      | some .ErrAlreadyExists =>
        some (BuildDError ("fatal: A branch named '" ++ dest ++ "' already exists."))
      | some .ErrInvBranchName =>
        some (BuildDError ("fatal: '" ++ dest ++ "' is not a valid branch name."))
      | some err =>
        some (BuildDErrorCause
          ("fatal: Unexpected error copying branch from '" ++ src ++ "' to '" ++ dest ++ "'") err)
    (HandleVErrAndExitCode env verr true).after [Effect.CopyBranch src dest force]

/-- The function `handleDeleteBranches`. -/
def handleDeleteBranches (env : Env) (apr : ArgParseResults) (force : Bool) : Outcome :=
  if apr.NArg ≠ 1 then ⟨[Effect.usage], some 1⟩
  else
    let brName := apr.Arg 0
    let verr : Option VerboseError :=
      match env.DeleteBranch brName force with
      | none => none
      | some .ErrBranchNotFound =>
        some (BuildDError ("fatal: branch '" ++ brName ++ "' not found"))
      | some .ErrCOBranchDelete =>
        some (BuildDError ("error: Cannot delete checked out branch '" ++ brName ++ "'"))
      | some err =>
        some (BuildDErrorCause ("fatal: Unexpected error deleting '" ++ brName ++ "'") err)
    (HandleVErrAndExitCode env verr true).after [Effect.DeleteBranch brName force]

/-- The function `deleteBranches`. -/
def deleteBranches (env : Env) (apr : ArgParseResults) : Outcome :=
  handleDeleteBranches env apr (apr.Contains forceFlag)

/-- The function `deleteForceBranches`. -/
def deleteForceBranches (env : Env) (apr : ArgParseResults) : Outcome :=
  handleDeleteBranches env apr true

/-- The function `createBranchWithStartPt`, with the call of `actions.CreateBranch`
it makes. -/
def createBranchWithStartPt (env : Env) (newBranch startPt : String) (force : Bool) :
    Option VerboseError :=
  match env.CreateBranch newBranch startPt force with
  | none => none
  | some .ErrAlreadyExists =>
    some (BuildDError ("fatal: A branch named '" ++ newBranch ++ "' already exists."))
  | some .ErrInvBranchName =>
    some (BuildDError ("fatal: '" ++ newBranch ++ "' is an invalid branch name."))
  | some err =>
    if err = .ErrInvHash || IsNotACommit err then
      some (BuildDError ("fatal: '" ++ startPt ++ "' is not a commit and a branch '"
        ++ newBranch ++ "' cannot be created from it"))
    else
      some (BuildDErrorCause ("fatal: Unexpected error creating branch '" ++ newBranch ++ "'") err)

/-- The function `createBranch`. -/
def createBranch (env : Env) (apr : ArgParseResults) : Outcome :=
  if apr.NArg = 0 || apr.NArg > 2 then ⟨[Effect.usage], some 1⟩
  else
    let newBranch := apr.Arg 0
    let startPt := if apr.NArg = 2 then apr.Arg 1 else "head"
    let verr := createBranchWithStartPt env newBranch startPt (apr.Contains forceFlag)
    (HandleVErrAndExitCode env verr true).after
      [Effect.CreateBranch newBranch startPt (apr.Contains forceFlag)]

/-- The method `BranchCmd.Exec`, from the parse result on. -/
def Exec (env : Env) (apr : ArgParseResults) : Outcome :=
  if apr.Contains moveFlag then moveBranch env apr
  else if apr.Contains copyFlag then copyBranch env apr
  else if apr.Contains deleteFlag then deleteBranches env apr
  else if apr.Contains deleteForceFlag then deleteForceBranches env apr
  else if apr.Contains listFlag then printBranches env apr
  else if apr.NArg > 0 then createBranch env apr
  else printBranches env apr

/-- An environment in which every branch action succeeds and the database holds
the branches `master` (checked out) and `feature`. -/
def envOk : Env where
  MoveBranch := fun _ _ _ => none
  CopyBranch := fun _ _ _ => none
  DeleteBranch := fun _ _ => none
  CreateBranch := fun _ _ _ => none
  GetRefs := .ok [⟨.BranchRefType, "master"⟩, ⟨.BranchRefType, "feature"⟩]
  CWBHeadRef := ⟨.BranchRefType, "master"⟩
  headOf := fun _ => .resolveFailed
  refString := fun r => "refs/heads/" ++ r.path
  refEquals := fun a b => decide (a = b)
  Verbose := fun v => v.msg
  ShouldPrintUsage := fun _ => false
  GreenString := fun s => s
  RedString := fun s => s
  allParam := "all"

end Branch

namespace Sqle

/-! ## Draining a row iterator (`sqletestutil/executesql.go`) -/

/-- The `error` values that `drainIter` tells apart: `io.EOF` and any other error. -/
inductive GoError where
  | EOF
  | other (msg : String)
  deriving DecidableEq

/-- A `sql.RowIter`, by its method `Next` on an explicit iterator state. The row that
`Next` returns is dropped by `drainIter` and is left out; the error is `none`
for Go's `nil`. -/
structure RowIter (σ : Type) where
  Next : σ → σ × Option GoError

/-- The errors returned by the first `n` successive calls of `Next` from state `s`. -/
def RowIter.results {σ : Type} (iter : RowIter σ) : σ → Nat → List (Option GoError)
  | _, 0 => []
  | s, n + 1 => (iter.Next s).2 :: RowIter.results iter (iter.Next s).1 n

/-- The last non-nil error of a sequence of results, `none` when there is none. -/
def lastError (rs : List (Option GoError)) : Option GoError :=
  (rs.filterMap id).getLast?

/-- What a run of `drainIter` comes to: the error returned and the number of calls
of `Next` made. -/
structure Drained where
  returned : Option GoError
  calls : Nat
  deriving DecidableEq

/-- The loop `for { ... }` of `drainIter`, from iterator state `s`, with the current
value of `returnedErr` and the number of calls of `Next` made so far. The loop
has no bound of its own; `fuel` bounds the number of iterations and the answer
is `none` when it runs out. -/
def drainLoop {σ : Type} (iter : RowIter σ) : Nat → σ → Option GoError → Nat → Option Drained
  | 0, _, _, _ => none
  | fuel + 1, s, returnedErr, calls =>
    let r := iter.Next s
    if r.2 = some GoError.EOF then some ⟨returnedErr, calls + 1⟩
    else if r.2 ≠ none then drainLoop iter fuel r.1 r.2 (calls + 1)
    else drainLoop iter fuel r.1 returnedErr (calls + 1)

/-- The function `drainIter`. -/
def drainIter {σ : Type} (iter : RowIter σ) (fuel : Nat) (s : σ) : Option Drained :=
  drainLoop iter fuel s none 0

/-- An iterator that plays back a script of results and answers `io.EOF` once the
script is used up. -/
def scripted : RowIter (List (Option GoError)) where
  Next := fun s =>
    match s with
    | [] => ([], some GoError.EOF)
    | r :: rest => (rest, r)

end Sqle

namespace Nbs

/-! ## Lemmas on the single-address loops -/

theorem hasFrom_spec (h : addr) (l : List chunkReader) (i : Nat) :
    ((chunkReaderGroup.hasFrom h i l).result = true →
      ∃ k m, l[k]? = some m ∧ m.has h = true ∧
        (∀ j m', j < k → l[j]? = some m' → m'.has h = false) ∧
        (chunkReaderGroup.hasFrom h i l).consulted = List.range' i (k + 1)) ∧
    ((chunkReaderGroup.hasFrom h i l).result = false →
      (chunkReaderGroup.hasFrom h i l).consulted = List.range' i l.length ∧
        ∀ m ∈ l, m.has h = false) := by
  induction l generalizing i with
  | nil => simp [chunkReaderGroup.hasFrom]
  | cons haver rest ih =>
    by_cases hh : haver.has h = true
    · refine ⟨fun _ => ⟨0, haver, by simp, hh, by simp, ?_⟩, ?_⟩
      · simp [chunkReaderGroup.hasFrom, hh, List.range']
      · simp [chunkReaderGroup.hasFrom, hh]
    · have hf : haver.has h = false := by simpa using hh
      obtain ⟨ih1, ih2⟩ := ih (i + 1)
      constructor
      · intro hr
        have hr' : (chunkReaderGroup.hasFrom h (i + 1) rest).result = true := by
          simpa [chunkReaderGroup.hasFrom, hf] using hr
        obtain ⟨k, m, hk, hm, hlt, hc⟩ := ih1 hr'
        refine ⟨k + 1, m, by simpa using hk, hm, ?_, ?_⟩
        · intro j m' hj hjm
          cases j with
          | zero =>
            have : haver = m' := by simpa using hjm
            exact this ▸ hf
          | succ j => exact hlt j m' (by omega) (by simpa using hjm)
        · simp [chunkReaderGroup.hasFrom, hf, hc, List.range']
      · intro hr
        have hr' : (chunkReaderGroup.hasFrom h (i + 1) rest).result = false := by
          simpa [chunkReaderGroup.hasFrom, hf] using hr
        obtain ⟨hc, hall⟩ := ih2 hr'
        refine ⟨?_, ?_⟩
        · simp [chunkReaderGroup.hasFrom, hf, hc, List.range']
        · intro m hm
          rcases List.mem_cons.1 hm with rfl | hm
          · exact hf
          · exact hall m hm

theorem getFrom_spec (h : addr) (l : List chunkReader) (i : Nat) :
    (∀ data, (chunkReaderGroup.getFrom h i l).result = some data →
      ∃ k m, l[k]? = some m ∧ m.get h = some data ∧
        (∀ j m', j < k → l[j]? = some m' → m'.get h = none) ∧
        (chunkReaderGroup.getFrom h i l).consulted = List.range' i (k + 1)) ∧
    ((chunkReaderGroup.getFrom h i l).result = none →
      (chunkReaderGroup.getFrom h i l).consulted = List.range' i l.length ∧
        ∀ m ∈ l, m.get h = none) := by
  induction l generalizing i with
  | nil => simp [chunkReaderGroup.getFrom]
  | cons haver rest ih =>
    cases hh : haver.get h with
    | some d =>
      refine ⟨fun data hd => ⟨0, haver, by simp, ?_, by simp, ?_⟩, ?_⟩
      · simpa [chunkReaderGroup.getFrom, hh] using hd
      · simp [chunkReaderGroup.getFrom, hh, List.range']
      · simp [chunkReaderGroup.getFrom, hh]
    | none =>
      obtain ⟨ih1, ih2⟩ := ih (i + 1)
      constructor
      · intro data hr
        have hr' : (chunkReaderGroup.getFrom h (i + 1) rest).result = some data := by
          simpa [chunkReaderGroup.getFrom, hh] using hr
        obtain ⟨k, m, hk, hm, hlt, hc⟩ := ih1 data hr'
        refine ⟨k + 1, m, by simpa using hk, hm, ?_, ?_⟩
        · intro j m' hj hjm
          cases j with
          | zero =>
            have : haver = m' := by simpa using hjm
            exact this ▸ hh
          | succ j => exact hlt j m' (by omega) (by simpa using hjm)
        · simp [chunkReaderGroup.getFrom, hh, hc, List.range']
      · intro hr
        have hr' : (chunkReaderGroup.getFrom h (i + 1) rest).result = none := by
          simpa [chunkReaderGroup.getFrom, hh] using hr
        obtain ⟨hc, hall⟩ := ih2 hr'
        refine ⟨?_, ?_⟩
        · simp [chunkReaderGroup.getFrom, hh, hc, List.range']
        · intro m hm
          rcases List.mem_cons.1 hm with rfl | hm
          · exact hh
          · exact hall m hm

/-! ## Lemmas on the batch loops -/

theorem hasManyFrom_eq_batchLoop (crg : List chunkReader) (i : Nat) (b : List hasRecord) :
    chunkReaderGroup.hasManyFrom i crg b = batchLoop i (crg.map (fun m => m.hasMany)) b := by
  induction crg generalizing i b with
  | nil => rfl
  | cons m rest ih => simp [chunkReaderGroup.hasManyFrom, batchLoop, ih]

theorem getManyFrom_eq_batchLoop (crg : List chunkReader) (i : Nat) (b : List getRecord) :
    chunkReaderGroup.getManyFrom i crg b = batchLoop i (crg.map (fun m => m.getMany)) b := by
  induction crg generalizing i b with
  | nil => rfl
  | cons m rest ih => simp [chunkReaderGroup.getManyFrom, batchLoop, ih]

theorem hasBatchAt_eq_batchAt (crg : List chunkReader) (b : List hasRecord) (j : Nat) :
    hasBatchAt crg b j = batchAt (crg.map (fun m => m.hasMany)) b j := by
  simp [hasBatchAt, batchAt, ← List.map_take, List.foldl_map]

theorem getBatchAt_eq_batchAt (crg : List chunkReader) (b : List getRecord) (j : Nat) :
    getBatchAt crg b j = batchAt (crg.map (fun m => m.getMany)) b j := by
  simp [getBatchAt, batchAt, ← List.map_take, List.foldl_map]

theorem batchAt_zero {ρ : Type} (fs : List (List ρ → List ρ × Bool)) (b : List ρ) :
    batchAt fs b 0 = b := by
  simp [batchAt]

theorem batchAt_cons_succ {ρ : Type} (f : List ρ → List ρ × Bool)
    (fs : List (List ρ → List ρ × Bool)) (b : List ρ) (j : Nat) :
    batchAt (f :: fs) b (j + 1) = batchAt fs (f b).1 j := by
  simp [batchAt]

theorem batchLoop_spec {ρ : Type} (fs : List (List ρ → List ρ × Bool)) (i : Nat) (b : List ρ) :
    ∃ k, k ≤ fs.length ∧
      (batchLoop i fs b).calls = (List.range k).map (fun j => (i + j, batchAt fs b j)) ∧
      (batchLoop i fs b).records = batchAt fs b k ∧
      (∀ j f, j + 1 < k → fs[j]? = some f → (f (batchAt fs b j)).2 = true) ∧
      ((batchLoop i fs b).remaining = false →
        ∃ j f, k = j + 1 ∧ fs[j]? = some f ∧ (f (batchAt fs b j)).2 = false) ∧
      ((batchLoop i fs b).remaining = true →
        k = fs.length ∧ ∀ (j : Nat) (f : List ρ → List ρ × Bool),
          fs[j]? = some f → (f (batchAt fs b j)).2 = true) := by
  induction fs generalizing i b with
  | nil =>
    refine ⟨0, by simp, by simp [batchLoop], by simp [batchLoop, batchAt], ?_, ?_, ?_⟩
    · intro j f hj; omega
    · simp [batchLoop]
    · simp
  | cons f fs ih =>
    by_cases hf : (f b).2 = true
    · obtain ⟨k, hk, hcalls, hrec, hmid, hfalse, htrue⟩ := ih (i + 1) (f b).1
      have hloop : batchLoop i (f :: fs) b =
          ⟨(batchLoop (i + 1) fs (f b).1).records, (batchLoop (i + 1) fs (f b).1).remaining,
            (i, b) :: (batchLoop (i + 1) fs (f b).1).calls⟩ := by
        simp [batchLoop, hf]
      refine ⟨k + 1, by simpa using hk, ?_, ?_, ?_, ?_, ?_⟩
      · rw [hloop, List.range_succ_eq_map]
        simp only [List.map_cons, List.map_map, hcalls, batchAt_zero, Nat.add_zero]
        congr 1
        apply List.map_congr_left
        intro j _
        simp [batchAt_cons_succ]
        omega
      · rw [hloop, batchAt_cons_succ]; exact hrec
      · intro j g hj hg
        cases j with
        | zero =>
          have : f = g := by simpa using hg
          subst this
          simpa [batchAt_zero] using hf
        | succ j =>
          rw [batchAt_cons_succ]
          exact hmid j g (by omega) (by simpa using hg)
      · intro hr
        rw [hloop] at hr
        obtain ⟨j, g, hkj, hg, hgf⟩ := hfalse hr
        exact ⟨j + 1, g, by omega, by simpa using hg, by rw [batchAt_cons_succ]; exact hgf⟩
      · intro hr
        rw [hloop] at hr
        obtain ⟨hkl, hall⟩ := htrue hr
        refine ⟨by simp [hkl], ?_⟩
        intro j g hg
        cases j with
        | zero =>
          have : f = g := by simpa using hg
          subst this
          simpa [batchAt_zero] using hf
        | succ j =>
          rw [batchAt_cons_succ]
          exact hall j g (by simpa using hg)
    · have hf' : (f b).2 = false := by simpa using hf
      have hloop : batchLoop i (f :: fs) b = ⟨(f b).1, false, [(i, b)]⟩ := by
        simp [batchLoop, hf']
      refine ⟨1, by simp, ?_, ?_, ?_, ?_, ?_⟩
      · rw [hloop]; simp [batchAt_zero, List.range_succ]
      · rw [hloop]; simp [batchAt]
      · intro j g hj; omega
      · intro _
        exact ⟨0, f, rfl, by simp, by simpa [batchAt_zero] using hf'⟩
      · rw [hloop]; simp

/-! ## The group against the batch contract -/

theorem hasFrom_result (h : addr) (l : List chunkReader) (i : Nat) :
    (chunkReaderGroup.hasFrom h i l).result = l.any (fun m => m.has h) := by
  induction l generalizing i with
  | nil => rfl
  | cons m rest ih =>
    by_cases hm : m.has h = true
    · simp [chunkReaderGroup.hasFrom, hm]
    · have hf : m.has h = false := by simpa using hm
      simp [chunkReaderGroup.hasFrom, hf, ih]

theorem has_cons_result (m : chunkReader) (rest : List chunkReader) (h : addr) :
    (chunkReaderGroup.has (m :: rest) h).result
      = (m.has h || (chunkReaderGroup.has rest h).result) := by
  simp [chunkReaderGroup.has, hasFrom_result]

theorem markFound_none (r : hasRecord) : markFound (fun _ => false) r = r := by
  simp [markFound]

theorem markFound_markFound (f g : addr → Bool) (r : hasRecord) :
    markFound g (markFound f r) = markFound (fun a => f a || g a) r := by
  obtain ⟨a, b⟩ := r
  cases b <;> cases hf : f a <;> cases hg : g a <;> simp [markFound, hf, hg]

theorem markFound_of_found (f g : addr → Bool) (r : hasRecord)
    (hr : (markFound f r).has = true) :
    markFound (fun a => f a || g a) r = markFound f r := by
  obtain ⟨a, b⟩ := r
  cases b <;> cases hf : f a <;> cases hg : g a <;> simp_all [markFound]

theorem not_anyUnresolved_iff (recs : List hasRecord) :
    ¬ anyUnresolved recs ↔ ∀ r ∈ recs, r.has = true := by
  simp [anyUnresolved]

theorem hasManyFrom_records (crg : List chunkReader) (hc : ∀ m ∈ crg, obeysHasMany m)
    (i : Nat) (addrs : List hasRecord) :
    (chunkReaderGroup.hasManyFrom i crg addrs).records
      = addrs.map (markFound (fun a => (chunkReaderGroup.has crg a).result)) := by
  induction crg generalizing i addrs with
  | nil =>
    have hid : markFound (fun _ => false) = id := funext markFound_none
    simp [chunkReaderGroup.hasManyFrom, chunkReaderGroup.has, chunkReaderGroup.hasFrom, hid]
  | cons m rest ih =>
    obtain ⟨h1, h2⟩ := hc m (List.mem_cons_self _ _) addrs
    have hrest : ∀ m' ∈ rest, obeysHasMany m' := fun m' hm' => hc m' (List.mem_cons_of_mem _ hm')
    have hfun : (fun a => (chunkReaderGroup.has (m :: rest) a).result)
        = fun a => (m.has a || (chunkReaderGroup.has rest a).result) := by
      funext a; exact has_cons_result m rest a
    rw [hfun]
    by_cases hrem : (m.hasMany addrs).2 = true
    · have : chunkReaderGroup.hasManyFrom i (m :: rest) addrs =
          ⟨(chunkReaderGroup.hasManyFrom (i + 1) rest (m.hasMany addrs).1).records,
           (chunkReaderGroup.hasManyFrom (i + 1) rest (m.hasMany addrs).1).remaining,
           (i, addrs) :: (chunkReaderGroup.hasManyFrom (i + 1) rest (m.hasMany addrs).1).calls⟩ := by
        simp [chunkReaderGroup.hasManyFrom, hrem]
      rw [this]
      simp only [ih hrest, h1, List.map_map]
      apply List.map_congr_left
      intro r _
      simp [markFound_markFound]
    · have hrem' : (m.hasMany addrs).2 = false := by simpa using hrem
      have : chunkReaderGroup.hasManyFrom i (m :: rest) addrs
          = ⟨(m.hasMany addrs).1, false, [(i, addrs)]⟩ := by
        simp [chunkReaderGroup.hasManyFrom, hrem']
      rw [this]
      have hall : ∀ r ∈ (m.hasMany addrs).1, r.has = true := by
        rw [← not_anyUnresolved_iff]
        intro hu
        exact hrem (h2.2 hu)
      simp only [h1]
      apply List.map_congr_left
      intro r hr
      symm
      apply markFound_of_found
      apply hall
      rw [h1]
      exact List.mem_map_of_mem _ hr

theorem hasManyFrom_remaining (crg : List chunkReader) (hc : ∀ m ∈ crg, obeysHasMany m)
    (i : Nat) (addrs : List hasRecord) (hne : crg ≠ [] ∨ anyUnresolved addrs) :
    (chunkReaderGroup.hasManyFrom i crg addrs).remaining = true
      ↔ anyUnresolved (chunkReaderGroup.hasManyFrom i crg addrs).records := by
  induction crg generalizing i addrs with
  | nil =>
    rcases hne with h | h
    · exact absurd rfl h
    · simpa [chunkReaderGroup.hasManyFrom] using h
  | cons m rest ih =>
    obtain ⟨_, h2⟩ := hc m (List.mem_cons_self _ _) addrs
    have hrest : ∀ m' ∈ rest, obeysHasMany m' := fun m' hm' => hc m' (List.mem_cons_of_mem _ hm')
    by_cases hrem : (m.hasMany addrs).2 = true
    · have : chunkReaderGroup.hasManyFrom i (m :: rest) addrs =
          ⟨(chunkReaderGroup.hasManyFrom (i + 1) rest (m.hasMany addrs).1).records,
           (chunkReaderGroup.hasManyFrom (i + 1) rest (m.hasMany addrs).1).remaining,
           (i, addrs) :: (chunkReaderGroup.hasManyFrom (i + 1) rest (m.hasMany addrs).1).calls⟩ := by
        simp [chunkReaderGroup.hasManyFrom, hrem]
      rw [this]
      exact ih hrest (i + 1) (m.hasMany addrs).1 (Or.inr (h2.1 hrem))
    · have hrem' : (m.hasMany addrs).2 = false := by simpa using hrem
      have : chunkReaderGroup.hasManyFrom i (m :: rest) addrs
          = ⟨(m.hasMany addrs).1, false, [(i, addrs)]⟩ := by
        simp [chunkReaderGroup.hasManyFrom, hrem']
      rw [this]
      constructor
      · intro h; cases h
      · intro h; exact absurd (h2.2 h) hrem

theorem hasManyBy_fst (has : addr → Bool) (recs : List hasRecord) :
    (hasManyBy has recs).1 = recs.map (markFound has) := by
  induction recs with
  | nil => rfl
  | cons r rs ih =>
    obtain ⟨a, b⟩ := r
    cases b <;> cases hh : has a <;> simp [hasManyBy, markFound, hh, ih]

theorem hasManyBy_snd (has : addr → Bool) (recs : List hasRecord) :
    (hasManyBy has recs).2 = true ↔ anyUnresolved (hasManyBy has recs).1 := by
  induction recs with
  | nil => simp [hasManyBy, anyUnresolved]
  | cons r rs ih =>
    obtain ⟨a, b⟩ := r
    cases b <;> cases hh : has a <;>
      simp_all [hasManyBy, anyUnresolved]

theorem memTable_reader_obeys (mt : memTable) : obeysHasMany mt.reader := by
  intro recs
  exact ⟨hasManyBy_fst _ recs, hasManyBy_snd _ recs⟩

theorem tableReader_reader_obeys (tr : tableReader) : obeysHasMany tr.reader := by
  intro recs
  exact ⟨hasManyBy_fst _ recs, hasManyBy_snd _ recs⟩

theorem batchLoop_prefix {ρ : Type} (fs : List (List ρ → List ρ × Bool)) (b : List ρ) :
    ∃ k, k ≤ fs.length ∧
      (batchLoop 0 fs b).calls = (List.range k).map (fun j => (j, batchAt fs b j)) ∧
      (batchLoop 0 fs b).records = batchAt fs b k ∧
      (∀ j f, j + 1 < k → fs[j]? = some f → (f (batchAt fs b j)).2 = true) ∧
      ((batchLoop 0 fs b).remaining = false ↔
        ∃ j f, k = j + 1 ∧ fs[j]? = some f ∧ (f (batchAt fs b j)).2 = false) ∧
      ((batchLoop 0 fs b).remaining = true ↔
        k = fs.length ∧ ∀ (j : Nat) (f : List ρ → List ρ × Bool),
          fs[j]? = some f → (f (batchAt fs b j)).2 = true) := by
  obtain ⟨k, hk, hcalls, hrec, hmid, hfalse, htrue⟩ := batchLoop_spec fs 0 b
  refine ⟨k, hk, by simpa using hcalls, hrec, hmid, ⟨hfalse, ?_⟩, ⟨htrue, ?_⟩⟩
  · rintro ⟨j, f, _, hjf, hf⟩
    cases hr : (batchLoop 0 fs b).remaining with
    | false => rfl
    | true =>
      have := (htrue hr).2 j f hjf
      rw [hf] at this
      cases this
  · rintro ⟨_, hall⟩
    cases hr : (batchLoop 0 fs b).remaining with
    | true => rfl
    | false =>
      obtain ⟨j, f, _, hjf, hf⟩ := hfalse hr
      have := hall j f hjf
      rw [hf] at this
      cases this

theorem getElem?_map_some {α β : Type} (g : α → β) (l : List α) (j : Nat) (m : α)
    (h : l[j]? = some m) : (l.map g)[j]? = some (g m) := by
  simp [List.getElem?_map, h]

theorem getElem?_map_inv {α β : Type} (g : α → β) (l : List α) (j : Nat) (f : β)
    (h : (l.map g)[j]? = some f) : ∃ m, l[j]? = some m ∧ g m = f := by
  simpa [List.getElem?_map] using h

/-! ## The claims on the chunk reader group -/

/-- C1: `chunkReaderGroup.has(h)` is true exactly when some member's `has(h)` is
true. On a hit the members called are exactly those at positions `0..k`, in list
order, where `k` is the first member that has `h`, so no member after the first
hit is consulted. `false` is answered only after every member, in list order,
was called and reported a miss. -/
theorem chunkReaderGroup_has_first_hit (crg : chunkReaderGroup) (h : addr) :
    ((crg.has h).result = true ↔ ∃ m ∈ crg, m.has h = true) ∧
    ((crg.has h).result = true →
      ∃ k m, crg[k]? = some m ∧ m.has h = true ∧
        (∀ j m', j < k → crg[j]? = some m' → m'.has h = false) ∧
        (crg.has h).consulted = List.range (k + 1)) ∧
    ((crg.has h).result = false →
      (crg.has h).consulted = List.range crg.length ∧ ∀ m ∈ crg, m.has h = false) := by
  obtain ⟨h1, h2⟩ := hasFrom_spec h crg 0
  refine ⟨?_, ?_, ?_⟩
  · simp [chunkReaderGroup.has, hasFrom_result]
  · intro hr
    obtain ⟨k, m, hk, hm, hlt, hc⟩ := h1 hr
    exact ⟨k, m, hk, hm, hlt, by rw [List.range_eq_range']; exact hc⟩
  · intro hr
    obtain ⟨hc, hall⟩ := h2 hr
    exact ⟨by rw [List.range_eq_range']; exact hc, hall⟩

/-- C7: `chunkReaderGroup.get(h)` returns the data of the first member, in list
order, whose `get(h)` is non-nil; the members called are exactly those at
positions `0..k` up to that member, so no later member is consulted. It returns
nil exactly when the `get(h)` of every member is nil, and then every member was
called, in list order. -/
theorem chunkReaderGroup_get_first_hit (crg : chunkReaderGroup) (h : addr) :
    (∀ data, (crg.get h).result = some data →
      ∃ k m, crg[k]? = some m ∧ m.get h = some data ∧
        (∀ j m', j < k → crg[j]? = some m' → m'.get h = none) ∧
        (crg.get h).consulted = List.range (k + 1)) ∧
    ((crg.get h).result = none ↔ ∀ m ∈ crg, m.get h = none) ∧
    ((crg.get h).result = none → (crg.get h).consulted = List.range crg.length) := by
  obtain ⟨h1, h2⟩ := getFrom_spec h crg 0
  refine ⟨?_, ⟨fun hr => (h2 hr).2, ?_⟩, ?_⟩
  · intro data hr
    obtain ⟨k, m, hk, hm, hlt, hc⟩ := h1 data hr
    exact ⟨k, m, hk, hm, hlt, by rw [List.range_eq_range']; exact hc⟩
  · intro hall
    cases hr : (crg.get h).result with
    | none => rfl
    | some data =>
      obtain ⟨k, m, hk, hm, _, _⟩ := h1 data hr
      have hmem : m ∈ crg := List.getElem?_mem hk
      rw [hall m hmem] at hm
      cases hm
  · intro hr
    rw [List.range_eq_range']
    exact (h2 hr).1

/-- C10: `chunkReaderGroup.hasMany` and `chunkReaderGroup.getMany` call the batch
method of the members at positions `0..k-1`, in list order, each on the batch
its predecessor left (the first on the batch given); every member called before
the last answered `true`; the group answers `false` exactly when the last member
called answered `false`, and `true` exactly when every member of the list was
called and each answered `true`. -/
theorem chunkReaderGroup_batch_prefix (crg : chunkReaderGroup)
    (addrs : List hasRecord) (reqs : List getRecord) :
    (∃ k, k ≤ crg.length ∧
      (crg.hasMany addrs).calls = (List.range k).map (fun j => (j, hasBatchAt crg addrs j)) ∧
      (crg.hasMany addrs).records = hasBatchAt crg addrs k ∧
      (∀ j m, j + 1 < k → crg[j]? = some m → (m.hasMany (hasBatchAt crg addrs j)).2 = true) ∧
      ((crg.hasMany addrs).remaining = false ↔
        ∃ j m, k = j + 1 ∧ crg[j]? = some m ∧ (m.hasMany (hasBatchAt crg addrs j)).2 = false) ∧
      ((crg.hasMany addrs).remaining = true ↔
        k = crg.length ∧ ∀ (j : Nat) (m : chunkReader),
          crg[j]? = some m → (m.hasMany (hasBatchAt crg addrs j)).2 = true)) ∧
    (∃ k, k ≤ crg.length ∧
      (crg.getMany reqs).calls = (List.range k).map (fun j => (j, getBatchAt crg reqs j)) ∧
      (crg.getMany reqs).records = getBatchAt crg reqs k ∧
      (∀ j m, j + 1 < k → crg[j]? = some m → (m.getMany (getBatchAt crg reqs j)).2 = true) ∧
      ((crg.getMany reqs).remaining = false ↔
        ∃ j m, k = j + 1 ∧ crg[j]? = some m ∧ (m.getMany (getBatchAt crg reqs j)).2 = false) ∧
      ((crg.getMany reqs).remaining = true ↔
        k = crg.length ∧ ∀ (j : Nat) (m : chunkReader),
          crg[j]? = some m → (m.getMany (getBatchAt crg reqs j)).2 = true)) := by
  constructor
  · obtain ⟨k, hk, hcalls, hrec, hmid, hfalse, htrue⟩ :=
      batchLoop_prefix (crg.map (fun m => m.hasMany)) addrs
    simp only [← hasManyFrom_eq_batchLoop, ← hasBatchAt_eq_batchAt] at hcalls hrec hmid hfalse htrue
    refine ⟨k, by simpa using hk, hcalls, hrec, ?_, ?_, ?_⟩
    · intro j m hj hm
      exact hmid j _ hj (getElem?_map_some _ crg j m hm)
    · rw [show (crg.hasMany addrs).remaining
          = (chunkReaderGroup.hasManyFrom 0 crg addrs).remaining from rfl, hfalse]
      constructor
      · rintro ⟨j, f, hkj, hjf, hf⟩
        obtain ⟨m, hm, rfl⟩ := getElem?_map_inv _ crg j f hjf
        exact ⟨j, m, hkj, hm, hf⟩
      · rintro ⟨j, m, hkj, hm, hf⟩
        exact ⟨j, _, hkj, getElem?_map_some _ crg j m hm, hf⟩
    · rw [show (crg.hasMany addrs).remaining
          = (chunkReaderGroup.hasManyFrom 0 crg addrs).remaining from rfl, htrue]
      constructor
      · rintro ⟨hkl, hall⟩
        exact ⟨by simpa using hkl, fun j m hm => hall j _ (getElem?_map_some _ crg j m hm)⟩
      · rintro ⟨hkl, hall⟩
        refine ⟨by simpa using hkl, fun j f hjf => ?_⟩
        obtain ⟨m, hm, rfl⟩ := getElem?_map_inv _ crg j f hjf
        exact hall j m hm
  · obtain ⟨k, hk, hcalls, hrec, hmid, hfalse, htrue⟩ :=
      batchLoop_prefix (crg.map (fun m => m.getMany)) reqs
    simp only [← getManyFrom_eq_batchLoop, ← getBatchAt_eq_batchAt] at hcalls hrec hmid hfalse htrue
    refine ⟨k, by simpa using hk, hcalls, hrec, ?_, ?_, ?_⟩
    · intro j m hj hm
      exact hmid j _ hj (getElem?_map_some _ crg j m hm)
    · rw [show (crg.getMany reqs).remaining
          = (chunkReaderGroup.getManyFrom 0 crg reqs).remaining from rfl, hfalse]
      constructor
      · rintro ⟨j, f, hkj, hjf, hf⟩
        obtain ⟨m, hm, rfl⟩ := getElem?_map_inv _ crg j f hjf
        exact ⟨j, m, hkj, hm, hf⟩
      · rintro ⟨j, m, hkj, hm, hf⟩
        exact ⟨j, _, hkj, getElem?_map_some _ crg j m hm, hf⟩
    · rw [show (crg.getMany reqs).remaining
          = (chunkReaderGroup.getManyFrom 0 crg reqs).remaining from rfl, htrue]
      constructor
      · rintro ⟨hkl, hall⟩
        exact ⟨by simpa using hkl, fun j m hm => hall j _ (getElem?_map_some _ crg j m hm)⟩
      · rintro ⟨hkl, hall⟩
        refine ⟨by simpa using hkl, fun j f hjf => ?_⟩
        obtain ⟨m, hm, rfl⟩ := getElem?_map_inv _ crg j f hjf
        exact hall j m hm

/-- C2 (as amended): for a group whose members each obey the `hasMany` batch
contract, the group leaves every record as the contract describes for the
group's own `has`, and, when the group has at least one member or the batch
handed in holds an unresolved record, it answers `true` exactly when a record is
still unresolved after its pass. -/
theorem chunkReaderGroup_hasMany_contract (crg : chunkReaderGroup) (addrs : List hasRecord)
    (hc : ∀ m ∈ crg, obeysHasMany m) (hne : crg ≠ [] ∨ anyUnresolved addrs) :
    (crg.hasMany addrs).records = addrs.map (markFound (fun a => (crg.has a).result)) ∧
    ((crg.hasMany addrs).remaining = true ↔ anyUnresolved (crg.hasMany addrs).records) :=
  ⟨hasManyFrom_records crg hc 0 addrs, hasManyFrom_remaining crg hc 0 addrs hne⟩

/-- Witness of C2 as amended: the group of the memory tables holding "goodbye2"
and "badbye2", asked for the addresses of "goodbye2" and "hello2". -/
theorem chunkReaderGroup_hasMany_contract_witness :
    (∀ m ∈ [mtGoodbye.reader, mtBadbye.reader], obeysHasMany m) ∧
    (chunkReaderGroup.hasMany [mtGoodbye.reader, mtBadbye.reader]
        [⟨addrOf 1, false⟩, ⟨addrOf 0, false⟩]).records
      = [⟨addrOf 1, false⟩, ⟨addrOf 0, false⟩].map
          (markFound (fun a =>
            (chunkReaderGroup.has [mtGoodbye.reader, mtBadbye.reader] a).result)) ∧
    ((chunkReaderGroup.hasMany [mtGoodbye.reader, mtBadbye.reader]
        [⟨addrOf 1, false⟩, ⟨addrOf 0, false⟩]).remaining = true ↔
      anyUnresolved (chunkReaderGroup.hasMany [mtGoodbye.reader, mtBadbye.reader]
        [⟨addrOf 1, false⟩, ⟨addrOf 0, false⟩]).records) :=
  have hc : ∀ m ∈ [mtGoodbye.reader, mtBadbye.reader], obeysHasMany m := by
    intro m hm
    rcases List.mem_cons.1 hm with rfl | hm
    · exact memTable_reader_obeys _
    · rcases List.mem_cons.1 hm with rfl | hm
      · exact memTable_reader_obeys _
      · cases hm
  ⟨hc, chunkReaderGroup_hasMany_contract _ _ hc (Or.inl (by simp))⟩

/-- C2 fails as stated: the group without members answers `true` for a batch
whose only record was found before, although no record remains unresolved. -/
theorem chunkReaderGroup_hasMany_empty_group :
    (∀ m ∈ ([] : chunkReaderGroup), obeysHasMany m) ∧
    (chunkReaderGroup.hasMany [] [⟨addrOf 0, true⟩]).remaining = true ∧
    ¬ anyUnresolved (chunkReaderGroup.hasMany [] [⟨addrOf 0, true⟩]).records := by
  refine ⟨by simp, rfl, ?_⟩
  simp [anyUnresolved, chunkReaderGroup.hasMany, chunkReaderGroup.hasManyFrom]

/-! ## The memory table -/

theorem addChunk_of_has (mt : memTable) (a : addr) (b : List byte) (h : mt.has a = true) :
    mt.addChunk a b = (mt, true) := by
  simp [memTable.addChunk, h]

theorem addChunk_of_full (mt : memTable) (a : addr) (b : List byte) (h : mt.has a = false)
    (hfull : mt.maxData < mt.totalData + b.length) :
    mt.addChunk a b = (mt, false) := by
  simp [memTable.addChunk, h, hfull]

theorem addChunk_of_room (mt : memTable) (a : addr) (b : List byte) (h : mt.has a = false)
    (hroom : mt.totalData + b.length ≤ mt.maxData) :
    mt.addChunk a b =
      (⟨mt.chunks ++ [(a, b)], mt.totalData + b.length, mt.maxData⟩, true) := by
  have : ¬ mt.maxData < mt.totalData + b.length := by omega
  simp [memTable.addChunk, h, this]

theorem addChunk_maxData (mt : memTable) (a : addr) (b : List byte) :
    (mt.addChunk a b).1.maxData = mt.maxData := by
  unfold memTable.addChunk
  split
  · rfl
  · split <;> rfl

theorem addChunk_totalData_le (mt : memTable) (a : addr) (b : List byte)
    (h : mt.totalData ≤ mt.maxData) :
    (mt.addChunk a b).1.totalData ≤ (mt.addChunk a b).1.maxData := by
  unfold memTable.addChunk
  split
  · exact h
  · split
    · exact h
    · simp only; omega

theorem addChunks_maxData (mt : memTable) (calls : List (addr × List byte)) :
    (mt.addChunks calls).1.maxData = mt.maxData := by
  induction calls generalizing mt with
  | nil => rfl
  | cons c cs ih => simp [memTable.addChunks, ih, addChunk_maxData]

theorem addChunks_totalData_le (mt : memTable) (calls : List (addr × List byte))
    (h : mt.totalData ≤ mt.maxData) :
    (mt.addChunks calls).1.totalData ≤ mt.maxData := by
  induction calls generalizing mt with
  | nil => exact h
  | cons c cs ih =>
    have := ih (mt.addChunk c.1 c.2).1 (addChunk_totalData_le mt c.1 c.2 h)
    rw [addChunk_maxData] at this
    simpa [memTable.addChunks] using this

theorem addChunk_totalData (mt : memTable) (a : addr) (b : List byte) :
    (mt.addChunk a b).1.totalData = mt.totalData
      + (if mt.has a = false ∧ (mt.addChunk a b).2 = true then b.length else 0) := by
  by_cases hh : mt.has a = true
  · simp [addChunk_of_has mt a b hh, hh]
  · have hf : mt.has a = false := by simpa using hh
    by_cases hroom : mt.totalData + b.length ≤ mt.maxData
    · simp [addChunk_of_room mt a b hf hroom, hf]
    · simp [addChunk_of_full mt a b hf (by omega), hf]

theorem addChunks_totalData (mt : memTable) (calls : List (addr × List byte)) :
    (mt.addChunks calls).1.totalData = mt.totalData + insertedSize mt calls := by
  induction calls generalizing mt with
  | nil => rfl
  | cons c cs ih =>
    simp only [memTable.addChunks, insertedSize, ih, addChunk_totalData mt c.1 c.2]
    omega

theorem has_eq_true_iff (mt : memTable) (a : addr) :
    mt.has a = true ↔ ∃ b, (a, b) ∈ mt.chunks := by
  simp only [memTable.has, List.any_eq_true, decide_eq_true_eq]
  constructor
  · rintro ⟨⟨a', b⟩, hmem, rfl⟩
    exact ⟨b, hmem⟩
  · rintro ⟨b, hmem⟩
    exact ⟨(a, b), hmem, rfl⟩

theorem addChunk_has (mt : memTable) (a : addr) (b : List byte) (a' : addr) :
    (mt.addChunk a b).1.has a' = true →
      mt.has a' = true ∨ ((mt.addChunk a b).2 = true ∧ a' = a) := by
  by_cases hh : mt.has a = true
  · simp only [addChunk_of_has mt a b hh]
    exact fun h => Or.inl h
  · have hf : mt.has a = false := by simpa using hh
    by_cases hroom : mt.totalData + b.length ≤ mt.maxData
    · simp only [addChunk_of_room mt a b hf hroom]
      intro h
      rw [has_eq_true_iff] at h
      obtain ⟨b', hb'⟩ := h
      simp only [List.mem_append, List.mem_singleton, Prod.mk.injEq] at hb'
      rcases hb' with hb' | ⟨rfl, _⟩
      · exact Or.inl ((has_eq_true_iff mt a').2 ⟨b', hb'⟩)
      · exact Or.inr ⟨trivial, rfl⟩
    · simp only [addChunk_of_full mt a b hf (by omega)]
      exact fun h => Or.inl h

theorem addChunks_accepted_of_nodup (mt : memTable) (calls : List (addr × List byte))
    (hnd : (calls.map Prod.fst).Nodup) (hfresh : ∀ c ∈ calls, mt.has c.1 = false) :
    insertedSize mt calls = acceptedSize calls (mt.addChunks calls).2 := by
  induction calls generalizing mt with
  | nil => rfl
  | cons c cs ih =>
    have hc : mt.has c.1 = false := hfresh c (List.mem_cons_self _ _)
    simp only [List.map_cons, List.nodup_cons] at hnd
    have hrest : ∀ c' ∈ cs, (mt.addChunk c.1 c.2).1.has c'.1 = false := by
      intro c' hc'
      cases hres : (mt.addChunk c.1 c.2).1.has c'.1 with
      | false => rfl
      | true =>
        rcases addChunk_has mt c.1 c.2 c'.1 hres with h | ⟨_, h⟩
        · rw [hfresh c' (List.mem_cons_of_mem _ hc')] at h
          cases h
        · exact absurd (h ▸ List.mem_map_of_mem Prod.fst hc') hnd.1
    have := ih (mt.addChunk c.1 c.2).1 hnd.2 hrest
    cases hok : (mt.addChunk c.1 c.2).2 <;>
      simp [insertedSize, acceptedSize, memTable.addChunks, hc, hok, this]

theorem get_eq_none_of_has (mt : memTable) (a : addr) (h : mt.has a = false) :
    mt.get a = none := by
  simp only [memTable.has, List.any_eq_false, decide_eq_true_eq] at h
  simp only [memTable.get, Option.map_eq_none', List.find?_eq_none, decide_eq_true_eq]
  exact h

theorem mem_of_get (mt : memTable) (a : addr) (b : List byte) (h : mt.get a = some b) :
    (a, b) ∈ mt.chunks := by
  simp only [memTable.get, Option.map_eq_some'] at h
  obtain ⟨e, he, rfl⟩ := h
  have h1 := List.mem_of_find?_eq_some he
  have h2 := List.find?_some he
  simp only [decide_eq_true_eq] at h2
  obtain ⟨a', b'⟩ := e
  simp only at h2
  subst h2
  exact h1

theorem get_of_has (mt : memTable) (a : addr) (h : mt.has a = true) :
    ∃ b, mt.get a = some b := by
  cases hg : mt.get a with
  | some b => exact ⟨b, rfl⟩
  | none =>
    simp only [memTable.get, Option.map_eq_none', List.find?_eq_none, decide_eq_true_eq] at hg
    obtain ⟨b, hb⟩ := (has_eq_true_iff mt a).1 h
    exact absurd rfl (hg (a, b) hb)

theorem get_append_new (l : List (addr × List byte)) (t m : Nat) (a : addr) (b : List byte)
    (h : (⟨l, t, m⟩ : memTable).has a = false) (t' m' : Nat) :
    (⟨l ++ [(a, b)], t', m'⟩ : memTable).get a = some b := by
  have hn := get_eq_none_of_has _ a h
  simp only [memTable.get, Option.map_eq_none'] at hn
  simp [memTable.get, List.find?_append, hn]

theorem get_append_old (l : List (addr × List byte)) (t m : Nat) (a' : addr) (b' : List byte)
    (h : (⟨l, t, m⟩ : memTable).get a' = some b') (x : addr × List byte) (t' m' : Nat) :
    (⟨l ++ [x], t', m'⟩ : memTable).get a' = some b' := by
  simp only [memTable.get, Option.map_eq_some'] at h
  obtain ⟨e, he, hb⟩ := h
  simp [memTable.get, List.find?_append, he, hb]

theorem addChunk_get_persist (mt : memTable) (a : addr) (b : List byte) (a' : addr)
    (b' : List byte) (h : mt.get a' = some b') : (mt.addChunk a b).1.get a' = some b' := by
  by_cases hh : mt.has a = true
  · simpa [addChunk_of_has mt a b hh] using h
  · have hf : mt.has a = false := by simpa using hh
    by_cases hroom : mt.totalData + b.length ≤ mt.maxData
    · rw [addChunk_of_room mt a b hf hroom]
      exact get_append_old mt.chunks mt.totalData mt.maxData a' b' h _ _ _
    · simpa [addChunk_of_full mt a b hf (by omega)] using h

theorem addChunks_get_persist (mt : memTable) (calls : List (addr × List byte)) (a' : addr)
    (b' : List byte) (h : mt.get a' = some b') : (mt.addChunks calls).1.get a' = some b' := by
  induction calls generalizing mt with
  | nil => exact h
  | cons c cs ih =>
    exact ih (mt.addChunk c.1 c.2).1 (addChunk_get_persist mt c.1 c.2 a' b' h)

theorem addChunk_mem (mt : memTable) (a : addr) (b : List byte) :
    ∀ e ∈ (mt.addChunk a b).1.chunks, e ∈ mt.chunks ∨ e = (a, b) := by
  intro e he
  by_cases hh : mt.has a = true
  · rw [addChunk_of_has mt a b hh] at he
    exact Or.inl he
  · have hf : mt.has a = false := by simpa using hh
    by_cases hroom : mt.totalData + b.length ≤ mt.maxData
    · rw [addChunk_of_room mt a b hf hroom] at he
      simpa using he
    · rw [addChunk_of_full mt a b hf (by omega)] at he
      exact Or.inl he

theorem addChunk_get_of_ok (S : List (addr × List byte))
    (hS : ∀ x ∈ S, ∀ y ∈ S, x.1 = y.1 → x.2 = y.2)
    (mt : memTable) (hmt : ∀ e ∈ mt.chunks, e ∈ S) (c : addr × List byte) (hc : c ∈ S)
    (hok : (mt.addChunk c.1 c.2).2 = true) : (mt.addChunk c.1 c.2).1.get c.1 = some c.2 := by
  by_cases hh : mt.has c.1 = true
  · obtain ⟨b, hb⟩ := get_of_has mt c.1 hh
    have hmem := hmt _ (mem_of_get mt c.1 b hb)
    have : b = c.2 := hS _ hmem _ hc rfl
    rw [addChunk_of_has mt c.1 c.2 hh, hb, this]
  · have hf : mt.has c.1 = false := by simpa using hh
    by_cases hroom : mt.totalData + c.2.length ≤ mt.maxData
    · rw [addChunk_of_room mt c.1 c.2 hf hroom]
      exact get_append_new mt.chunks mt.totalData mt.maxData c.1 c.2 hf _ _
    · rw [addChunk_of_full mt c.1 c.2 hf (by omega)] at hok
      cases hok

theorem addChunks_get_of_ok (S : List (addr × List byte))
    (hS : ∀ x ∈ S, ∀ y ∈ S, x.1 = y.1 → x.2 = y.2)
    (mt : memTable) (hmt : ∀ e ∈ mt.chunks, e ∈ S)
    (calls : List (addr × List byte)) (hcalls : ∀ c ∈ calls, c ∈ S)
    (c : addr × List byte) (hc : (c, true) ∈ calls.zip (mt.addChunks calls).2) :
    (mt.addChunks calls).1.get c.1 = some c.2 := by
  induction calls generalizing mt with
  | nil => simp at hc
  | cons c0 cs ih =>
    have hc0 : c0 ∈ S := hcalls c0 (List.mem_cons_self _ _)
    have hmt1 : ∀ e ∈ (mt.addChunk c0.1 c0.2).1.chunks, e ∈ S := by
      intro e he
      rcases addChunk_mem mt c0.1 c0.2 e he with h | h
      · exact hmt e h
      · rw [h]; exact hc0
    simp only [memTable.addChunks, List.zip_cons_cons, List.mem_cons, Prod.mk.injEq] at hc
    rcases hc with ⟨rfl, hok⟩ | hc
    · exact addChunks_get_persist _ cs _ _
        (addChunk_get_of_ok S hS mt hmt c hc0 hok.symm)
    · exact ih (mt.addChunk c0.1 c0.2).1 hmt1
        (fun c' hc' => hcalls c' (List.mem_cons_of_mem _ hc')) hc

theorem addChunks_has (mt : memTable) (calls : List (addr × List byte)) (a : addr)
    (h : (mt.addChunks calls).1.has a = true) :
    mt.has a = true ∨ ∃ c, (c, true) ∈ calls.zip (mt.addChunks calls).2 ∧ c.1 = a := by
  induction calls generalizing mt with
  | nil => exact Or.inl h
  | cons c0 cs ih =>
    rcases ih (mt.addChunk c0.1 c0.2).1 h with h1 | ⟨c, hc, hca⟩
    · rcases addChunk_has mt c0.1 c0.2 a h1 with h2 | ⟨hok, ha⟩
      · exact Or.inl h2
      · refine Or.inr ⟨c0, ?_, ha.symm⟩
        simp [memTable.addChunks, hok]
    · refine Or.inr ⟨c, ?_, hca⟩
      simp only [memTable.addChunks, List.zip_cons_cons, List.mem_cons]
      exact Or.inr hc

theorem newMemTable_eq (C : Nat) (mt0 : memTable) (h : newMemTable C = some mt0) :
    mt0 = ⟨[], 0, C⟩ := by
  unfold newMemTable at h
  split at h
  · cases h
  · exact (Option.some.inj h).symm

/-! ## The claims on the memory table -/

/-- C3: for a memory table of capacity `maxData` holding `totalData` payload bytes
and a chunk whose address is not yet present, `addChunk` answers `true` exactly
when `totalData + len(data) <= maxData` (the boundary is inclusive); when it
answers `false` the table is unchanged: the address is still absent, `has` and
`get` of every address and the occupied total are as before. -/
theorem memTable_addChunk_boundary (mt : memTable) (h : addr) (data : List byte)
    (hnew : mt.has h = false) :
    ((mt.addChunk h data).2 = true ↔ mt.totalData + data.length ≤ mt.maxData) ∧
    ((mt.addChunk h data).2 = false →
      (mt.addChunk h data).1 = mt ∧
      (mt.addChunk h data).1.has h = false ∧
      (∀ h', (mt.addChunk h data).1.has h' = mt.has h' ∧
             (mt.addChunk h data).1.get h' = mt.get h') ∧
      (mt.addChunk h data).1.totalData = mt.totalData) := by
  by_cases hroom : mt.totalData + data.length ≤ mt.maxData
  · simp [addChunk_of_room mt h data hnew hroom, hroom]
  · simp [addChunk_of_full mt h data hnew (by omega), hroom, hnew]

/-- Witness of C3: the table of capacity 1024 holding 1023 bytes accepts the
one-byte chunk `little` of the overflow test. -/
theorem memTable_addChunk_boundary_witness :
    mtAlmostFull.has (addrOf 1) = false ∧
    ((mtAlmostFull.addChunk (addrOf 1) [1]).2 = true ↔
      mtAlmostFull.totalData + [(1 : byte)].length ≤ mtAlmostFull.maxData) :=
  ⟨by decide, (memTable_addChunk_boundary mtAlmostFull (addrOf 1) [1] (by decide)).1⟩

/-- C4 (as amended): for a table made by `newMemTable(C)` and any run of `addChunk`
calls, after each call the occupied total is at most `C` and equals the sum of
the payload lengths of the chunks the calls inserted, that is of the calls that
answered `true` for an address not present before; when the addresses of the
calls are pairwise distinct this is the sum over the calls that answered `true`. -/
theorem memTable_budget_invariant (C : Nat) (mt0 : memTable)
    (calls : List (addr × List byte)) (hnew : newMemTable C = some mt0) (n : Nat) :
    (mt0.addChunks (calls.take n)).1.totalData ≤ C ∧
    (mt0.addChunks (calls.take n)).1.totalData = insertedSize mt0 (calls.take n) ∧
    ((calls.map Prod.fst).Nodup →
      (mt0.addChunks (calls.take n)).1.totalData
        = acceptedSize (calls.take n) (mt0.addChunks (calls.take n)).2) := by
  have h0 := newMemTable_eq C mt0 hnew
  subst h0
  refine ⟨?_, ?_, ?_⟩
  · exact addChunks_totalData_le _ _ (Nat.zero_le _)
  · simpa using addChunks_totalData ⟨[], 0, C⟩ (calls.take n)
  · intro hnd
    have hnd' : ((calls.take n).map Prod.fst).Nodup := by
      rw [List.map_take]
      exact (List.take_sublist n _).nodup hnd
    rw [← addChunks_accepted_of_nodup ⟨[], 0, C⟩ _ hnd' (fun c _ => by simp [memTable.has])]
    simpa using addChunks_totalData ⟨[], 0, C⟩ (calls.take n)

/-- Witness of C4 as amended: a table of capacity 16 offered "hello2", then
"goodbye2", then "badbye2" (the last one does not fit). -/
theorem memTable_budget_invariant_witness :
    newMemTable 16 = some ⟨[], 0, 16⟩ ∧
    ((⟨[], 0, 16⟩ : memTable).addChunks
      ([(addrOf 0, chunkHello), (addrOf 1, chunkGoodbye), (addrOf 2, chunkBadbye)].take 3)).1.totalData
      ≤ 16 :=
  ⟨rfl, (memTable_budget_invariant 16 ⟨[], 0, 16⟩
    [(addrOf 0, chunkHello), (addrOf 1, chunkGoodbye), (addrOf 2, chunkBadbye)] rfl 3).1⟩

/-- C4 fails as stated: on a fresh table of capacity 1024, adding "hello2" twice
under one address answers `true` both times, yet the occupied total is 6, not
the 12 bytes that the calls answering `true` sum to. -/
theorem memTable_readd_counts_once :
    newMemTable 1024 = some ⟨[], 0, 1024⟩ ∧
    ((⟨[], 0, 1024⟩ : memTable).addChunks
      [(addrOf 0, chunkHello), (addrOf 0, chunkHello)]).2 = [true, true] ∧
    ((⟨[], 0, 1024⟩ : memTable).addChunks
      [(addrOf 0, chunkHello), (addrOf 0, chunkHello)]).1.totalData = 6 ∧
    acceptedSize [(addrOf 0, chunkHello), (addrOf 0, chunkHello)] [true, true] = 12 := by
  decide

/-- C5: on a table made by `newMemTable`, after a run of calls
`addChunk(computeAddr(c), c)` over chunks on which `computeAddr` does not
collide, every chunk whose call answered `true` is reported by `has` and `get`
returns exactly its bytes; every address that no call answering `true` added is
reported absent by `has` and `get` returns nil for it. -/
theorem memTable_add_has_get (computeAddr : List byte → addr) (C : Nat) (mt0 : memTable)
    (chunks : List (List byte)) (hnew : newMemTable C = some mt0)
    (hinj : ∀ c1 ∈ chunks, ∀ c2 ∈ chunks, computeAddr c1 = computeAddr c2 → c1 = c2) :
    (∀ c, (c, true) ∈ chunks.zip (mt0.addChunks (chunks.map (fun c => (computeAddr c, c)))).2 →
      (mt0.addChunks (chunks.map (fun c => (computeAddr c, c)))).1.has (computeAddr c) = true ∧
      (mt0.addChunks (chunks.map (fun c => (computeAddr c, c)))).1.get (computeAddr c) = some c) ∧
    (∀ a, (∀ c, (c, true) ∈ chunks.zip (mt0.addChunks (chunks.map (fun c => (computeAddr c, c)))).2 →
        computeAddr c ≠ a) →
      (mt0.addChunks (chunks.map (fun c => (computeAddr c, c)))).1.has a = false ∧
      (mt0.addChunks (chunks.map (fun c => (computeAddr c, c)))).1.get a = none) := by
  have h0 := newMemTable_eq C mt0 hnew
  subst h0
  have hzip : ∀ (oks : List Bool) (c : List byte) (ok : Bool),
      (c, ok) ∈ chunks.zip oks ↔
        ((computeAddr c, c), ok) ∈ (chunks.map (fun c => (computeAddr c, c))).zip oks := by
    intro oks c ok
    rw [List.zip_map_left]
    simp only [List.mem_map, Prod.exists, Prod.map_apply, id_eq, Prod.mk.injEq]
    constructor
    · intro h
      exact ⟨c, ok, h, ⟨rfl, rfl⟩, rfl⟩
    · rintro ⟨c', ok', h, ⟨_, rfl⟩, rfl⟩
      exact h
  have hS : ∀ x ∈ chunks.map (fun c => (computeAddr c, c)),
      ∀ y ∈ chunks.map (fun c => (computeAddr c, c)), x.1 = y.1 → x.2 = y.2 := by
    intro x hx y hy hxy
    obtain ⟨c1, hc1, rfl⟩ := List.mem_map.1 hx
    obtain ⟨c2, hc2, rfl⟩ := List.mem_map.1 hy
    exact hinj c1 hc1 c2 hc2 hxy
  constructor
  · intro c hc
    have hget := addChunks_get_of_ok _ hS ⟨[], 0, C⟩ (by simp) _ (fun c hc => hc)
      (computeAddr c, c) ((hzip _ c true).1 hc)
    refine ⟨?_, hget⟩
    exact (has_eq_true_iff _ _).2 ⟨c, mem_of_get _ _ _ hget⟩
  · intro a ha
    have hfalse : (memTable.addChunks ⟨[], 0, C⟩
        (chunks.map (fun c => (computeAddr c, c)))).1.has a = false := by
      cases hres : (memTable.addChunks ⟨[], 0, C⟩
          (chunks.map (fun c => (computeAddr c, c)))).1.has a with
      | false => rfl
      | true =>
        rcases addChunks_has _ _ a hres with h | ⟨⟨a', c⟩, hc, hca⟩
        · simp [memTable.has] at h
        · have hmem := List.of_mem_zip hc
          obtain ⟨c', _, heq⟩ := List.mem_map.1 hmem.1
          simp only [Prod.mk.injEq] at heq
          obtain ⟨ha', rfl⟩ := heq
          subst ha'
          exact absurd hca (ha c' ((hzip _ c' true).2 hc))
    exact ⟨hfalse, get_eq_none_of_has _ a hfalse⟩

/-- Witness of C5: the run of `TestMemTableAddHasGetChunk`, the three chunks added
to a table of capacity 1024; "goodbye2" is then found with its bytes. -/
theorem memTable_add_has_get_witness :
    newMemTable 1024 = some ⟨[], 0, 1024⟩ ∧
    (∀ c1 ∈ [chunkHello, chunkGoodbye, chunkBadbye],
      ∀ c2 ∈ [chunkHello, chunkGoodbye, chunkBadbye],
        addrOfHead c1 = addrOfHead c2 → c1 = c2) ∧
    ((⟨[], 0, 1024⟩ : memTable).addChunks
      ([chunkHello, chunkGoodbye, chunkBadbye].map (fun c => (addrOfHead c, c)))).1.get
        (addrOfHead chunkGoodbye) = some chunkGoodbye :=
  ⟨rfl, by decide,
    ((memTable_add_has_get addrOfHead 1024 ⟨[], 0, 1024⟩
      [chunkHello, chunkGoodbye, chunkBadbye] rfl (by decide)).1 chunkGoodbye (by decide)).2⟩

/-! ## The bytes of a table file -/

theorem beBytes_length (k n : Nat) : (beBytes k n).length = k := by
  induction k generalizing n with
  | zero => rfl
  | succ k ih => simp [beBytes, ih]

theorem beValue_append_singleton (bs : List byte) (b : byte) :
    beValue (bs ++ [b]) = beValue bs * 256 + b.val := by
  simp [beValue, List.foldl_append]

theorem beValue_beBytes (k n : Nat) : beValue (beBytes k n) = n % 256 ^ k := by
  induction k generalizing n with
  | zero => simp [beBytes, beValue, Nat.mod_one]
  | succ k ih =>
    rw [beBytes, beValue_append_singleton, ih, Nat.pow_succ, Nat.mul_comm (256 ^ k) 256,
      Nat.mod_mul]
    simp only
    omega

theorem encodeEntry_length (e : indexEntry) : (encodeEntry e).length = indexEntrySize := by
  simp [encodeEntry, beBytes_length, indexEntrySize, e.a.2]

theorem encodeIndex_length (es : List indexEntry) :
    (encodeIndex es).length = es.length * indexEntrySize := by
  induction es with
  | nil => simp [encodeIndex]
  | cons e es ih =>
    simp only [encodeIndex, List.length_append, encodeEntry_length, ih, List.length_cons]
    rw [Nat.succ_mul]
    omega

theorem parseIndex_encodeIndex (es : List indexEntry) :
    parseIndex es.length (encodeIndex es) = some (es.map indexEntry.stored) := by
  induction es with
  | nil => rfl
  | cons e es ih =>
    have hshape : encodeIndex (e :: es)
        = e.a.val ++ (beBytes 8 e.offset ++ (beBytes 4 e.length ++ encodeIndex es)) := by
      simp [encodeIndex, encodeEntry, List.append_assoc]
    have htake : (encodeIndex (e :: es)).take addrSize = e.a.val := by
      rw [hshape]; exact List.take_left' e.a.2
    have hdrop : (encodeIndex (e :: es)).drop addrSize
        = beBytes 8 e.offset ++ (beBytes 4 e.length ++ encodeIndex es) := by
      rw [hshape]; exact List.drop_left' e.a.2
    have hoff : ((encodeIndex (e :: es)).drop addrSize).take 8 = beBytes 8 e.offset := by
      rw [hdrop]; exact List.take_left' (beBytes_length 8 _)
    have hdrop2 : (encodeIndex (e :: es)).drop (addrSize + 8)
        = beBytes 4 e.length ++ encodeIndex es := by
      rw [← List.drop_drop, hdrop]
      exact List.drop_left' (beBytes_length 8 _)
    have hlen : ((encodeIndex (e :: es)).drop (addrSize + 8)).take 4 = beBytes 4 e.length := by
      rw [hdrop2]; exact List.take_left' (beBytes_length 4 _)
    have hrest : (encodeIndex (e :: es)).drop indexEntrySize = encodeIndex es := by
      rw [encodeIndex]; exact List.drop_left' (encodeEntry_length e)
    have hl : ((encodeIndex (e :: es)).take addrSize).length = addrSize := by
      rw [htake]; exact e.a.2
    rw [List.length_cons, parseIndex, dif_pos hl]
    simp only [hrest, ih, hoff, hlen, beValue_beBytes, List.map_cons, indexEntry.stored]
    congr 3
    exact Subtype.ext htake

theorem writeAt_length (buff : List byte) (pos : Nat) (bs : List byte)
    (h : pos + bs.length ≤ buff.length) : (writeAt buff pos bs).length = buff.length := by
  simp only [writeAt, List.length_append, List.length_take, List.length_drop]
  omega

theorem writeAt_take (buff : List byte) (pos : Nat) (bs : List byte)
    (h : pos + bs.length ≤ buff.length) :
    (writeAt buff pos bs).take (pos + bs.length) = buff.take pos ++ bs := by
  apply List.take_left'
  simp only [List.length_append, List.length_take]
  omega

theorem newTableReader_finished (ck : List byte → Nat) (payload source : List byte)
    (es : List indexEntry) (hcount : es.length < 2 ^ 32) :
    newTableReader ck
        (payload ++ (encodeIndex es
          ++ (beBytes 4 es.length ++ beBytes checksumSize (ck (encodeIndex es))))) source
      = some ⟨es.map indexEntry.stored, source⟩ := by
  have hfl : (beBytes 4 es.length ++ beBytes checksumSize (ck (encodeIndex es))).length
      = footerSize := by
    simp [beBytes_length, footerSize]
  have htot : (payload ++ (encodeIndex es
      ++ (beBytes 4 es.length ++ beBytes checksumSize (ck (encodeIndex es))))).length
      = payload.length + es.length * indexEntrySize + footerSize := by
    rw [List.length_append, List.length_append, hfl, encodeIndex_length]
    omega
  have hfooter : (payload ++ (encodeIndex es
      ++ (beBytes 4 es.length ++ beBytes checksumSize (ck (encodeIndex es))))).drop
        (payload.length + es.length * indexEntrySize + footerSize - footerSize)
      = beBytes 4 es.length ++ beBytes checksumSize (ck (encodeIndex es)) := by
    rw [← List.append_assoc]
    apply List.drop_left'
    rw [List.length_append, encodeIndex_length]
    omega
  have hcnt : beValue ((beBytes 4 es.length
      ++ beBytes checksumSize (ck (encodeIndex es))).take 4) = es.length := by
    rw [List.take_left' (beBytes_length 4 _), beValue_beBytes]
    apply Nat.mod_eq_of_lt
    calc es.length < 2 ^ 32 := hcount
      _ = 256 ^ 4 := by norm_num
  have hsum : (beBytes 4 es.length ++ beBytes checksumSize (ck (encodeIndex es))).drop 4
      = beBytes checksumSize (ck (encodeIndex es)) :=
    List.drop_left' (beBytes_length 4 _)
  have hindex : ((payload ++ (encodeIndex es
      ++ (beBytes 4 es.length ++ beBytes checksumSize (ck (encodeIndex es))))).drop
        (payload.length + es.length * indexEntrySize + footerSize - footerSize
          - es.length * indexEntrySize)).take (es.length * indexEntrySize)
      = encodeIndex es := by
    have : payload.length + es.length * indexEntrySize + footerSize - footerSize
        - es.length * indexEntrySize = payload.length := by omega
    rw [this, List.drop_left' rfl]
    exact List.take_left' (encodeIndex_length es)
  have h1 : ¬ payload.length + es.length * indexEntrySize + footerSize < footerSize := by omega
  have h2 : ¬ payload.length + es.length * indexEntrySize + footerSize - footerSize
      < es.length * indexEntrySize := by omega
  unfold newTableReader
  simp only [htot, hfooter, hcnt, hsum, hindex, h1, h2, if_false, ne_eq, not_true_eq_false,
    parseIndex_encodeIndex]

theorem newTableReader_short_extent (ck : List byte → Nat) (tableBytes source : List byte)
    (h : tableBytes.length < footerSize) : newTableReader ck tableBytes source = none := by
  simp [newTableReader, h]

theorem newTableReader_short_index (ck : List byte → Nat) (tableBytes source : List byte)
    (h : tableBytes.length - footerSize
      < beValue ((tableBytes.drop (tableBytes.length - footerSize)).take 4) * indexEntrySize) :
    newTableReader ck tableBytes source = none := by
  unfold newTableReader
  simp only [h, if_true]
  split <;> rfl

/-! ## Flushing the memory table -/

theorem writeChunks_spec (haves : chunkReaderGroup) (cs : List (addr × List byte))
    (tw : tableWriter)
    (hroom : tw.pos + payloadSize (cs.filter (fun c => !(haves.any (fun m => m.has c.1))))
      ≤ tw.buff.length) :
    ∃ tw', memTable.writeChunks haves cs tw = some tw' ∧
      tw'.buff.length = tw.buff.length ∧
      tw'.pos = tw.pos + payloadSize (cs.filter (fun c => !(haves.any (fun m => m.has c.1)))) ∧
      tw'.index.map (fun e => e.a)
        = tw.index.map (fun e => e.a)
          ++ (cs.filter (fun c => !(haves.any (fun m => m.has c.1)))).map Prod.fst := by
  induction cs generalizing tw with
  | nil => exact ⟨tw, rfl, rfl, by simp [payloadSize], by simp⟩
  | cons c cs ih =>
    have hres : (chunkReaderGroup.has haves c.1).result = haves.any (fun m => m.has c.1) :=
      hasFrom_result c.1 haves 0
    by_cases hh : haves.any (fun m => m.has c.1) = true
    · have hfil : (c :: cs).filter (fun c => !(haves.any (fun m => m.has c.1)))
          = cs.filter (fun c => !(haves.any (fun m => m.has c.1))) := by
        rw [List.filter_cons, hh]; rfl
      rw [hfil] at hroom ⊢
      obtain ⟨tw', h1, h2, h3, h4⟩ := ih tw hroom
      refine ⟨tw', ?_, h2, h3, h4⟩
      rw [memTable.writeChunks, hres, hh]
      simpa using h1
    · have hf : haves.any (fun m => m.has c.1) = false := by simpa using hh
      have hfil : (c :: cs).filter (fun c => !(haves.any (fun m => m.has c.1)))
          = c :: cs.filter (fun c => !(haves.any (fun m => m.has c.1))) := by
        rw [List.filter_cons, hf]; rfl
      rw [hfil] at hroom ⊢
      simp only [payloadSize, List.map_cons, List.sum_cons] at hroom ⊢
      have hfit : ¬ tw.pos + c.2.length > tw.buff.length := by omega
      have hw : tw.writeChunk c.1 c.2 = some (tableWriter.mk (writeAt tw.buff tw.pos c.2)
          (tw.pos + c.2.length) (tw.index ++ [⟨c.1, tw.pos, c.2.length⟩])) := by
        simp [tableWriter.writeChunk, hfit]
      have hlen : (writeAt tw.buff tw.pos c.2).length = tw.buff.length :=
        writeAt_length _ _ _ (by omega)
      obtain ⟨tw', h1, h2, h3, h4⟩ := ih (tableWriter.mk (writeAt tw.buff tw.pos c.2)
          (tw.pos + c.2.length) (tw.index ++ [⟨c.1, tw.pos, c.2.length⟩]))
        (by simp only [payloadSize, hlen]; omega)
      refine ⟨tw', ?_, ?_, ?_, ?_⟩
      · rw [memTable.writeChunks, hres, hf]
        simp [hw, h1]
      · rw [h2]; exact hlen
      · rw [h3]; simp only [payloadSize]; omega
      · rw [h4]; simp

theorem mem_fresh_iff (mt : memTable) (haves : chunkReaderGroup) (h : addr) :
    h ∈ (mt.fresh haves).map Prod.fst
      ↔ (mt.has h = true ∧ ∀ m ∈ haves, m.has h = false) := by
  rw [has_eq_true_iff]
  simp only [memTable.fresh, List.mem_map, List.mem_filter, Bool.not_eq_true',
    List.any_eq_false, Prod.exists, exists_and_right, exists_eq_right]
  constructor
  · rintro ⟨hb, hall⟩
    exact ⟨hb, fun m hm => by simpa using hall m hm⟩
  · rintro ⟨hb, hall⟩
    exact ⟨hb, fun m hm => by simpa using hall m hm⟩

/-- C6: flushing a memory table against a group of existing sources into a writer
bound to the region `buff`, then `finish`, then opening the byte extent
`buff[:ll]` yields a reader that has exactly the addresses the memory table
holds and no member of the group has: a buffered chunk that some member has is
left out of the new table, a buffered chunk that every member lacks is in it;
this is the same as `has` of the group answering `false`. The region is sized as
the sizing contract asks for the chunks no member has, and their number fits the
four bytes of the chunk count. -/
theorem memTable_write_dedup (ck : List byte → Nat) (mt : memTable)
    (haves : chunkReaderGroup) (buff : List byte)
    (hsize : maxTableSize (mt.fresh haves).length (payloadSize (mt.fresh haves)) ≤ buff.length)
    (hcount : (mt.fresh haves).length < 2 ^ 32) :
    ∃ tw out ll tr,
      mt.write (newTableWriter buff) haves = some tw ∧
      tw.finish ck = some (out, ll) ∧ ll ≤ buff.length ∧ out.length = buff.length ∧
      newTableReader ck (out.take ll) (out.take ll) = some tr ∧
      (∀ h, tr.has h = true ↔ (mt.has h = true ∧ ∀ m ∈ haves, m.has h = false)) ∧
      (∀ h, mt.has h = true → (∃ m ∈ haves, m.has h = true) → tr.has h = false) ∧
      (∀ h, mt.has h = true → (∀ m ∈ haves, m.has h = false) → tr.has h = true) ∧
      (∀ h, tr.has h = true ↔ (mt.has h = true ∧ (haves.has h).result = false)) := by
  unfold maxTableSize at hsize
  obtain ⟨tw, h1, h2, h3, h4⟩ := writeChunks_spec haves mt.chunks (newTableWriter buff)
    (by simp only [newTableWriter]; unfold memTable.fresh at hsize; omega)
  simp only [newTableWriter, List.map_nil, List.nil_append, Nat.zero_add] at h2 h3 h4
  have h3' : tw.pos = payloadSize (mt.fresh haves) := h3
  have h4' : tw.index.map (fun e => e.a) = (mt.fresh haves).map Prod.fst := h4
  have hlen : tw.index.length = (mt.fresh haves).length := by
    simpa using congrArg List.length h4'
  have htail : (encodeIndex tw.index ++ (beBytes 4 tw.index.length
      ++ beBytes checksumSize (ck (encodeIndex tw.index)))).length
      = tw.index.length * indexEntrySize + footerSize := by
    simp only [List.length_append, encodeIndex_length, beBytes_length, footerSize]
  have hfit : tw.pos + (tw.index.length * indexEntrySize + footerSize) ≤ tw.buff.length := by
    rw [h2, h3', hlen]; omega
  have hhas : ∀ h, tableReader.has ⟨tw.index.map indexEntry.stored,
      (writeAt tw.buff tw.pos (encodeIndex tw.index ++ (beBytes 4 tw.index.length
        ++ beBytes checksumSize (ck (encodeIndex tw.index))))).take
        (tw.pos + (tw.index.length * indexEntrySize + footerSize))⟩ h = true
      ↔ (mt.has h = true ∧ ∀ m ∈ haves, m.has h = false) := by
    intro h
    rw [← mem_fresh_iff, ← h4']
    simp only [tableReader.has, List.any_eq_true, decide_eq_true_eq, List.mem_map,
      indexEntry.stored]
    constructor
    · rintro ⟨e, ⟨e', he', rfl⟩, rfl⟩
      exact ⟨e', he', rfl⟩
    · rintro ⟨e, he, rfl⟩
      exact ⟨_, ⟨e, he, rfl⟩, rfl⟩
  refine ⟨tw, writeAt tw.buff tw.pos (encodeIndex tw.index ++ (beBytes 4 tw.index.length
      ++ beBytes checksumSize (ck (encodeIndex tw.index)))),
    tw.pos + (tw.index.length * indexEntrySize + footerSize), _, h1, ?_, ?_, ?_, ?_,
    hhas, ?_, ?_, ?_⟩
  · have : ¬ tw.pos + (tw.index.length * indexEntrySize + footerSize) > tw.buff.length := by
      omega
    simp only [tableWriter.finish, htail, this, if_false]
  · rw [← h2]; exact hfit
  · rw [← h2]; exact writeAt_length _ _ _ (by rw [htail]; exact hfit)
  · rw [← htail, writeAt_take _ _ _ (by rw [htail]; exact hfit)]
    exact newTableReader_finished ck _ _ tw.index (by rw [hlen]; exact hcount)
  · intro h _ ⟨m, hm, hmh⟩
    cases hr : tableReader.has _ h with
    | false => rfl
    | true =>
      have := ((hhas h).1 hr).2 m hm
      rw [hmh] at this
      cases this
  · intro h hmt hall
    exact (hhas h).2 ⟨hmt, hall⟩
  · intro h
    rw [hhas h]
    have hres : (chunkReaderGroup.has haves h).result = haves.any (fun m => m.has h) :=
      hasFrom_result h haves 0
    rw [hres, List.any_eq_false]
    simp

/-- Witness of C6: the flush of `TestMemTableWrite`, the three chunks against the
readers of "goodbye2" and of "badbye2", into a zeroed region of
`maxTableSize(1, 6)` bytes. -/
theorem memTable_write_dedup_witness :
    maxTableSize (mtThree.fresh [trGoodbye.reader, trBadbye.reader]).length
        (payloadSize (mtThree.fresh [trGoodbye.reader, trBadbye.reader]))
      ≤ (List.replicate (maxTableSize 1 6) (0 : byte)).length ∧
    (mtThree.fresh [trGoodbye.reader, trBadbye.reader]).length < 2 ^ 32 ∧
    ∃ tw out ll tr,
      mtThree.write (newTableWriter (List.replicate (maxTableSize 1 6) 0))
        [trGoodbye.reader, trBadbye.reader] = some tw ∧
      tw.finish (fun bs => bs.length) = some (out, ll) ∧
      ll ≤ (List.replicate (maxTableSize 1 6) (0 : byte)).length ∧
      out.length = (List.replicate (maxTableSize 1 6) (0 : byte)).length ∧
      newTableReader (fun bs => bs.length) (out.take ll) (out.take ll) = some tr ∧
      (∀ h, tr.has h = true ↔
        (mtThree.has h = true ∧ ∀ m ∈ [trGoodbye.reader, trBadbye.reader], m.has h = false)) ∧
      (∀ h, mtThree.has h = true →
        (∃ m ∈ [trGoodbye.reader, trBadbye.reader], m.has h = true) → tr.has h = false) ∧
      (∀ h, mtThree.has h = true →
        (∀ m ∈ [trGoodbye.reader, trBadbye.reader], m.has h = false) → tr.has h = true) ∧
      (∀ h, tr.has h = true ↔
        (mtThree.has h = true ∧
          (chunkReaderGroup.has [trGoodbye.reader, trBadbye.reader] h).result = false)) :=
  ⟨by decide, by decide, memTable_write_dedup (fun bs => bs.length) mtThree
    [trGoodbye.reader, trBadbye.reader] (List.replicate (maxTableSize 1 6) 0)
    (by decide) (by decide)⟩

end Nbs

namespace Branch

/-! ## The branch command -/

theorem HandleVErrAndExitCode_no_action (env : Env) (verr : Option VerboseError) (usage : Bool) :
    ∀ e ∈ (HandleVErrAndExitCode env verr usage).effects, e.isAction = false := by
  intro e he
  unfold HandleVErrAndExitCode at he
  cases verr with
  | none => simp at he
  | some v =>
    simp only at he
    split_ifs at he <;> simp at he <;> (rcases he with rfl | rfl <;> rfl)

theorem after_no_action (pre : List Effect) (o : Outcome)
    (hpre : ∀ e ∈ pre, e.isAction = false) (ho : ∀ e ∈ o.effects, e.isAction = false) :
    ∀ e ∈ (o.after pre).effects, e.isAction = false := by
  intro e he
  simp only [Outcome.after, List.mem_append] at he
  rcases he with he | he
  · exact hpre e he
  · exact ho e he

theorem println_no_action (line : String) :
    ∀ e ∈ [Effect.println line], e.isAction = false := by
  intro e he
  simp only [List.mem_singleton] at he
  subst he
  rfl

theorem printBranchLoop_no_action (env : Env) (branchSet : List String)
    (verbose printAll : Bool) (branches : List DoltRef) :
    ∀ e ∈ (printBranchLoop env branchSet verbose printAll branches).effects,
      e.isAction = false := by
  induction branches with
  | nil => simp [printBranchLoop]
  | cons branch rest ih =>
    rw [printBranchLoop]
    simp only
    split_ifs <;>
      first
        | exact ih
        | exact after_no_action _ _ (println_no_action _) ih
        | (cases env.headOf branch <;>
            first
              | exact after_no_action _ _ (println_no_action _) ih
              | exact HandleVErrAndExitCode_no_action _ _ _)

theorem printBranches_no_action (env : Env) (apr : ArgParseResults) :
    ∀ e ∈ (printBranches env apr).effects, e.isAction = false := by
  intro e he
  unfold printBranches at he
  simp only at he
  split at he
  · exact HandleVErrAndExitCode_no_action env _ _ e he
  · exact printBranchLoop_no_action env _ _ _ _ e he

/-- C8: the code at the inputs of the claim. With the delete flag and one branch
name whose deletion succeeds, `Exec` calls `actions.DeleteBranch` on it and
returns 0. With the delete flag and two or more branch names, `Exec` prints the
usage and returns 1 without a call of `actions.DeleteBranch`. -/
theorem Exec_delete_many_prints_usage (env : Env) (b1 b2 : String) (rest : List String) :
    (env.DeleteBranch b1 false = none →
      Exec env ⟨[deleteFlag], [b1]⟩ = ⟨[Effect.DeleteBranch b1 false], some 0⟩) ∧
    Exec env ⟨[deleteFlag], b1 :: b2 :: rest⟩ = ⟨[Effect.usage], some 1⟩ := by
  have hcont : ∀ (args : List String) (name : String),
      ArgParseResults.Contains ⟨[deleteFlag], args⟩ name = [deleteFlag].contains name :=
    fun _ _ => rfl
  have hm : [deleteFlag].contains moveFlag = false := by decide
  have hc : [deleteFlag].contains copyFlag = false := by decide
  have hd : [deleteFlag].contains deleteFlag = true := by decide
  have hf : [deleteFlag].contains forceFlag = false := by decide
  constructor
  · intro hok
    simp only [Exec, hcont, hm, hc, hd, hf, deleteBranches, handleDeleteBranches,
      ArgParseResults.NArg, ArgParseResults.Arg]
    simp [hok, HandleVErrAndExitCode, Outcome.after]
  · simp only [Exec, hcont, hm, hc, hd, deleteBranches, handleDeleteBranches,
      ArgParseResults.NArg]
    simp

/-- C9 (as amended): when none of the move, copy, delete and `D` flags is given, and
`--list` is given or there is no positional argument, `Exec` returns the result
of `printBranches` and calls no move, copy, delete or create action. -/
theorem Exec_lists_branches (env : Env) (apr : ArgParseResults)
    (hmode : apr.Contains moveFlag = false ∧ apr.Contains copyFlag = false ∧
      apr.Contains deleteFlag = false ∧ apr.Contains deleteForceFlag = false)
    (hlist : apr.Contains listFlag = true ∨ apr.NArg = 0) :
    Exec env apr = printBranches env apr ∧
    ∀ e ∈ (Exec env apr).effects, e.isAction = false := by
  obtain ⟨hm, hc, hd, hD⟩ := hmode
  have hexec : Exec env apr = printBranches env apr := by
    rcases hlist with hl | hn
    · simp [Exec, hm, hc, hd, hD, hl]
    · simp [Exec, hm, hc, hd, hD, hn]
  exact ⟨hexec, hexec ▸ printBranches_no_action env apr⟩

/-- Witness of C9 as amended: `dolt branch --list` in an environment with the
branches `master` and `feature`. -/
theorem Exec_lists_branches_witness :
    (ArgParseResults.Contains ⟨[listFlag], []⟩ listFlag = true ∨
      ArgParseResults.NArg ⟨[listFlag], []⟩ = 0) ∧
    Exec envOk ⟨[listFlag], []⟩ = printBranches envOk ⟨[listFlag], []⟩ :=
  ⟨Or.inl (by decide),
    (Exec_lists_branches envOk ⟨[listFlag], []⟩ (by decide) (Or.inl (by decide))).1⟩

/-- C9 fails as stated: with both `--list` and `--delete` given and one positional
argument, `Exec` calls `actions.DeleteBranch` and lists nothing. -/
theorem Exec_list_with_delete_deletes :
    ArgParseResults.Contains ⟨[listFlag, deleteFlag], ["feature"]⟩ listFlag = true ∧
    Exec envOk ⟨[listFlag, deleteFlag], ["feature"]⟩
      = ⟨[Effect.DeleteBranch "feature" false], some 0⟩ ∧
    Effect.isAction (Effect.DeleteBranch "feature" false) = true := by
  refine ⟨by decide, ?_, rfl⟩
  decide

end Branch

namespace Sqle

/-! ## Draining a row iterator -/

theorem lastError_cons_none (rs : List (Option GoError)) :
    lastError (none :: rs) = lastError rs := by
  simp [lastError]

theorem lastError_cons_some (e : GoError) (rs : List (Option GoError)) :
    lastError (some e :: rs) = some ((lastError rs).getD e) := by
  simp only [lastError, List.filterMap_cons, id_eq]
  cases h : List.filterMap id rs with
  | nil => simp
  | cons a l =>
    simp only [List.getLast?_cons_cons]
    rw [List.getLast?_eq_getLast _ (List.cons_ne_nil a l)]
    simp

theorem drainLoop_spec {σ : Type} (iter : RowIter σ) (rs : List (Option GoError)) :
    ∀ (s : σ) (returnedErr : Option GoError) (calls fuel : Nat),
      iter.results s (rs.length + 1) = rs ++ [some GoError.EOF] →
      some GoError.EOF ∉ rs → rs.length < fuel →
      drainLoop iter fuel s returnedErr calls
        = some ⟨(lastError rs).or returnedErr, calls + rs.length + 1⟩ := by
  induction rs with
  | nil =>
    intro s returnedErr calls fuel h _ hf
    obtain ⟨fuel, rfl⟩ : ∃ f, fuel = f + 1 := ⟨fuel - 1, by simp at hf; omega⟩
    have h0 : (iter.Next s).2 = some GoError.EOF := by
      simpa [RowIter.results] using h
    simp [drainLoop, h0, lastError]
  | cons r rs ih =>
    intro s returnedErr calls fuel h hno hf
    obtain ⟨fuel, rfl⟩ : ∃ f, fuel = f + 1 := ⟨fuel - 1, by simp at hf; omega⟩
    simp only [List.length_cons, RowIter.results, List.cons_append, List.cons.injEq] at h
    obtain ⟨h0, hrest⟩ := h
    have hr : r ≠ some GoError.EOF := fun hr => hno (hr ▸ List.mem_cons_self _ _)
    have hno' : some GoError.EOF ∉ rs := fun hm => hno (List.mem_cons_of_mem _ hm)
    have hf' : rs.length < fuel := by simp at hf; omega
    have h0' : (iter.Next s).2 ≠ some GoError.EOF := h0 ▸ hr
    cases hr' : r with
    | none =>
      have h1 : (iter.Next s).2 = none := by rw [h0, hr']
      rw [drainLoop]
      simp only [h1, ne_eq, not_true_eq_false, if_false]
      rw [ih _ returnedErr (calls + 1) fuel hrest hno' hf', lastError_cons_none]
      simp only [List.length_cons, reduceCtorEq, if_false]
      congr 2
      omega
    | some e =>
      have h1 : (iter.Next s).2 = some e := by rw [h0, hr']
      have he : e ≠ GoError.EOF := fun he => hr (by rw [hr', he])
      rw [drainLoop]
      simp only [h1, Option.some.injEq, he, if_false, ne_eq, reduceCtorEq, not_false_eq_true,
        if_true]
      rw [ih _ (some e) (calls + 1) fuel hrest hno' hf', lastError_cons_some]
      simp only [List.length_cons]
      congr 2
      · cases lastError rs <;> simp
      · omega

/-- C11: for an iterator whose successive calls of `Next` yield the results `rs`
followed by `io.EOF`, with no `io.EOF` among `rs`, `drainIter` terminates (any
bound on the iterations above the length of `rs` is enough), calls `Next` once
for every result of `rs` and once more for the `io.EOF`, whatever errors `rs`
holds, and returns the last non-nil error of `rs`, or nil when `rs` holds no
error. -/
theorem drainIter_returns_last_error {σ : Type} (iter : RowIter σ) (s : σ)
    (rs : List (Option GoError)) (fuel : Nat)
    (hseq : iter.results s (rs.length + 1) = rs ++ [some GoError.EOF])
    (hno : some GoError.EOF ∉ rs) (hfuel : rs.length < fuel) :
    drainIter iter fuel s = some ⟨lastError rs, rs.length + 1⟩ ∧
    ((∀ r ∈ rs, r = none) → lastError rs = none) := by
  constructor
  · rw [drainIter, drainLoop_spec iter rs s none 0 fuel hseq hno hfuel]
    simp
  · intro hall
    have : rs.filterMap id = [] := by
      rw [List.filterMap_eq_nil_iff]
      intro r hr
      rw [hall r hr]
      rfl
    simp [lastError, this]

/-- Witness of C11: an iterator that yields a row, the error "a", a row, the error
"b", a row and then `io.EOF` is drained in six calls and the error "b" is
returned. -/
theorem drainIter_returns_last_error_witness :
    scripted.results [none, some (GoError.other "a"), none, some (GoError.other "b"), none] 6
      = [none, some (GoError.other "a"), none, some (GoError.other "b"), none]
          ++ [some GoError.EOF] ∧
    drainIter scripted 6
        [none, some (GoError.other "a"), none, some (GoError.other "b"), none]
      = some ⟨some (GoError.other "b"), 6⟩ :=
  ⟨by decide,
    (drainIter_returns_last_error scripted
      [none, some (GoError.other "a"), none, some (GoError.other "b"), none]
      [none, some (GoError.other "a"), none, some (GoError.other "b"), none] 6
      (by decide) (by decide) (by decide)).1.trans (by decide)⟩

end Sqle
